import Mathlib

/-!
# Verification of the RE/flex pattern compiler (`lib/pattern.cpp`)

A shallow embedding of the compilation pipeline of `reflex::Pattern`:
error policy, the accept-rule fold of `compile_transition`, the lookahead
recording of `parse4`, modifier-group flag scoping, the quantifier
follow-closure of `parse3`, `compact_dfa`, the dead-state (HALT) insertion of
`encode_dfa`, `Pattern::operator[]`, `Pattern::flip`, and the determinism of
the DFA builder and encoder with respect to the memory allocator.

Machine characters are `Nat` (the source `Char` is an integer type that also
holds meta symbols above `0xff`).  Ordered sets of the source are modelled as
lists; where iteration order matters (the accept fold) the order is made an
explicit hypothesis reflecting the ordered-container invariant.

`pattern.h` (the class declarations) is not part of the sources at hand; the
few data-model items taken from it (the `Position` field set, `Position::pos`,
the open-ended range storage of `Chars`) are modelled from the specification
and marked `Modelled from the spec:` in their doc comments.
-/

namespace Reflex

/-! ## Error policy (`Pattern::error`, pattern.cpp lines 131-138) -/

/-- The four error classes of the compiler (`Error::Code`). -/
inductive ErrCode where
  | REGEX_SYNTAX
  | REGEX_RANGE
  | REGEX_LIST
  | CODE_OVERFLOW
deriving DecidableEq, Repr

/-- Embedding of `Pattern::error`: the error is thrown to the caller exactly
when `opt_.r || code == Error::CODE_OVERFLOW` holds (the `opt_.w` display is
output only and does not affect throwing). -/
def errorThrows (r : Bool) (code : ErrCode) : Bool :=
  r || code = ErrCode.CODE_OVERFLOW

/-! ## Positions (data model of the parser and DFA builder)

Modelled from the spec: `pattern.h` is not among the sources; per the spec a
position carries a source location (or the accepting rule number when the
`accept` flag is set), an iteration index, an `accept`/`anchor`/`greedy`/
`ticked` flag each, and a `lazy` tag that is `0` when the position is not
lazy and otherwise holds the source location of the deferring `?`. -/

structure Position where
  /-- source location of the atom, or the rule number when `accept` is set -/
  val : Nat
  iter : Nat
  /-- 0 = not lazy, otherwise the location of the `?` that made it lazy -/
  lazyVal : Nat
  accept : Bool
  anchor : Bool
  greedy : Bool
  ticked : Bool
deriving DecidableEq, Repr

/-- A bare (non-accepting, unmarked) position at source location `l`. -/
def Position.atLoc (l : Nat) : Position :=
  ⟨l, 0, 0, false, false, false, false⟩

/-- The accepting marker of rule `n` (`Position(n).accept(true)`). -/
def Position.acceptMark (n : Nat) : Position :=
  ⟨n, 0, 0, true, false, false, false⟩

/-- `p.lazy(l)` of the source: set the lazy tag. -/
def Position.withLazy (p : Position) (l : Nat) : Position :=
  { p with lazyVal := l }

/-- `p.lazy(0).greedy(true)` of the source (`Pattern::greedy`). -/
def Position.asGreedy (p : Position) : Position :=
  { p with lazyVal := 0, greedy := true }

/-- `p.accepts()`: the rule number carried by an accepting marker. -/
def Position.accepts (p : Position) : Nat := p.val

/-- Modelled from the spec: `Position::pos()` — the bare key under which the
follow map is indexed: the lazy, greedy and anchor marks are cleared, the
location, iteration index and the accept/ticked nature are kept (§4.4 keys
the lazy memoization by the full lazy position, so bare keys carry no lazy
tag). -/
def Position.pos (p : Position) : Position :=
  { p with lazyVal := 0, greedy := false, anchor := false }

/-! ## The accept fold of `compile_transition` (pattern.cpp lines 1203-1212)

For every position of the state with `accept()` set, the state's `accept`
field is updated by
`if (state->accept == 0 || accept < state->accept) state->accept = accept;`
starting from `accept = 0`; positions are iterated in the order of the
ordered `Positions` set. -/

/-- One step of the fold at pattern.cpp:1205-1212 (the `redo` update is
omitted; it does not feed back into `accept`). -/
def acceptStep (acc : Nat) (p : Position) : Nat :=
  if p.accept then (if acc = 0 ∨ p.accepts < acc then p.accepts else acc) else acc

/-- The `accept` field of a state after `compile_transition` has folded over
the state's positions (in iteration order). -/
def transAccept (ps : List Position) : Nat :=
  ps.foldl acceptStep 0

/-- The accepts values of the accepting positions of a state, in iteration
order. -/
def acceptsList (ps : List Position) : List Nat :=
  (ps.filter (fun p => p.accept)).map Position.accepts

/-- What the claim asserts the fold computes: the minimum over the accepts
values of all accepting positions, `0` when there is none. -/
def claimMinAccepts (ps : List Position) : Nat :=
  match acceptsList ps with
  | [] => 0
  | a :: rest => rest.foldl Nat.min a

/-- What the fold actually computes on an ordered state: the minimum nonzero
accepts value, `0` when every accepting position has rule `0` (or there is
none). -/
def minNonzero (l : List Nat) : Nat :=
  match l.filter (fun a => a ≠ 0) with
  | [] => 0
  | a :: rest => rest.foldl Nat.min a

/-! ## `Pattern::operator[]` (pattern.cpp lines 116-129) -/

/-- Embedding of `Pattern::operator[](choice)`: the regex source for
`choice = 0`, the recorded sub-pattern for `1 ≤ choice ≤ size()`
(`size()` is the number of recorded endpoints), `""` beyond.
`std::string::substr(pos, len)` is `(drop pos).take len`. -/
def patternSub (rex : List Char) (ends : List Nat) (choice : Nat) : List Char :=
  if choice = 0 then rex
  else if 1 ≤ choice ∧ choice ≤ ends.length then
    let loc := ends.getD (choice - 1) 0
    let prev := if 2 ≤ choice then ends.getD (choice - 2) 0 + 1 else 0
    (rex.drop prev).take (loc - prev)
  else []

/-- Spec side, for the refinement statement of C9: the source substring of
rule `choice` delimited by the recorded per-rule endpoints: it starts right
after the previous rule's endpoint (at `0` for the first rule) and stops at
this rule's endpoint (exclusive). -/
def ruleSlice (rex : List Char) (ends : List Nat) (choice : Nat) : List Char :=
  let start := if choice ≤ 1 then 0 else ends.getD (choice - 2) 0 + 1
  let stop := ends.getD (choice - 1) 0
  (rex.drop start).take (stop - start)

/-! ## Lookahead recording of `parse4` (pattern.cpp lines 737-764)

Modelled from the spec: the per-rule lookahead map holds a set of
source-location ranges (`pattern.h` is not among the sources);
`find(lo, hi)` looks for a recorded range that meets `[lo, hi]` and
`insert(lo, hi)` records the range.  The recording step of the `(?=`
branch is, verbatim from lines 754-755:
`if (lookahead.find(l_pos.loc(), loc) == lookahead.end())
   lookahead.insert(l_pos.loc(), loc);`
and contains no `error()` call.  Fallible steps are embedded in `Except`;
this step always returns `ok`, mirroring the absence of a throw. -/

abbrev LookRanges := List (Nat × Nat)

/-- Two location ranges meet. -/
def rangesOverlap (a b : Nat × Nat) : Bool :=
  a.1 ≤ b.2 && b.1 ≤ a.2

/-- `Ranges::find(lo, hi)`: a recorded range meeting `[lo, hi]`, if any. -/
def rangesFind (rs : LookRanges) (lo hi : Nat) : Option (Nat × Nat) :=
  rs.find? (fun r => rangesOverlap r (lo, hi))

/-- `Ranges::insert(lo, hi)`: record the range. -/
def rangesInsert (rs : LookRanges) (lo hi : Nat) : LookRanges :=
  rs ++ [(lo, hi)]

/-- The lookahead-recording step of the `(?=` branch of `parse4`
(pattern.cpp lines 754-755). -/
def parse4LookaheadRecord (lookahead : LookRanges) (lo hi : Nat) :
    Except ErrCode LookRanges :=
  if rangesFind lookahead lo hi = none then
    Except.ok (rangesInsert lookahead lo hi)
  else
    Except.ok lookahead

/-! ## Modifier groups of `parse4` (pattern.cpp lines 780-846) -/

/-- The option record of the compiler (the boolean flags; `e`, `f`, `n` do
not participate in modifier groups). -/
structure Opts where
  b : Bool
  i : Bool
  l : Bool
  m : Bool
  q : Bool
  r : Bool
  s : Bool
  w : Bool
  x : Bool
deriving DecidableEq, Repr

/-- One iteration of the flag loop at pattern.cpp:788-805: `i`, `l`, `m`,
`q`, `s`, `x` set their flag; any other character raises
`REGEX_SYNTAX ("unrecognized modifier")` and — when the error is not thrown
— changes nothing. -/
def applyFlag (o : Opts) (c : Char) : Opts :=
  if c = 'i' then { o with i := true }
  else if c = 'l' then { o with l := true }
  else if c = 'm' then { o with m := true }
  else if c = 'q' then { o with q := true }
  else if c = 's' then { o with s := true }
  else if c = 'x' then { o with x := true }
  else o

/-- The whole flag list of the group applied in order. -/
def applyFlags (o : Opts) (flags : List Char) : Opts :=
  flags.foldl applyFlag o

/-- The restore at group close for a non-global group
(pattern.cpp lines 841-845): exactly `i`, `q`, `m`, `s`, `x` are reset to
their saved values. -/
def modifierGroupClose (saved o : Opts) : Opts :=
  { o with i := saved.i, q := saved.q, m := saved.m, s := saved.s, x := saved.x }

/-- A non-global modifier group `(?flags:body)`: the saved flags are those
at entry (lines 783-787), the flag list is applied, and the close restores
`i`, `q`, `m`, `s`, `x`.  The body's own constructs scope their effects by
their own rules and are not part of this step. -/
def modifierGroup (o : Opts) (flags : List Char) : Opts :=
  modifierGroupClose o (applyFlags o flags)

/-! ## DFA edges and the dead-state insertion of `encode_dfa`
(pattern.cpp lines 1713-1737) -/

/-- An entry of `state->edges`: key `lo`, value `(hi, target)`; the target
is `none` for the null (HALT) target inserted by `encode_dfa`. -/
structure Edge where
  lo : Nat
  hi : Nat
  tgt : Option Nat
deriving DecidableEq, Repr

/-- The frontier scan of `encode_dfa` (pattern.cpp:1719-1727): starting from
`hi = 0`, each edge whose `lo` equals the frontier advances it past the
edge's upper bound (`if (i->first == hi) hi = i->second.first + 1`). -/
def scanFrom (c : Nat) (edges : List Edge) : Nat :=
  edges.foldl (fun h e => if e.lo = h then e.hi + 1 else h) c

/-- `encode_dfa` adds the dead state exactly when the final frontier is
still `≤ 0xff` (pattern.cpp:1729). -/
def encodeAddsHalt (edges : List Edge) : Bool :=
  scanFrom 0 edges ≤ 0xff

/-- `std::map` keyed insertion (`state->edges[lo] = (hi, target)`): insert
in key order, overwriting an equal key. -/
def edgesInsert (e : Edge) : List Edge → List Edge
  | [] => [e]
  | f :: fs =>
    if e.lo < f.lo then e :: f :: fs
    else if e.lo = f.lo then e :: fs
    else f :: edgesInsert e fs

/-- The edges of a state after the dead-state step of `encode_dfa`
(pattern.cpp:1729-1733): when the frontier stayed `≤ 0xff`, the edge
`edges[hi] = (0xff, NULL)` is added. -/
def withDead (edges : List Edge) : List Edge :=
  if scanFrom 0 edges ≤ 0xff then
    edgesInsert ⟨scanFrom 0 edges, 0xff, none⟩ edges
  else edges

/-- Claim side of C5: "the state's existing edges already cover byte
`0xff`". -/
def coversFF (edges : List Edge) : Prop :=
  ∃ e ∈ edges, e.lo ≤ 0xff ∧ 0xff ≤ e.hi

/-! ## The quantifier step of `parse3` (pattern.cpp lines 536-566) -/

abbrev Positions := List Position

/-- The follow map, keyed by bare positions (`followpos[p->pos()]`). -/
abbrev FollowMap := Position → Positions

/-- `set_insert` of the source: sets are modelled as lists up to
membership. -/
def posUnion (a b : Positions) : Positions := a ++ b

/-- `set_insert(followpos[k], new)`. -/
def setInsertF (f : FollowMap) (k : Position) (new : Positions) : FollowMap :=
  fun q => if q = k then posUnion (f q) new else f q

/-- `for (p in keys) set_insert(followpos[p->pos()], new)`. -/
def followInsertAll (f : FollowMap) (keys : Positions) (new : Positions) :
    FollowMap :=
  keys.foldl (fun f p => setInsertF f p.pos new) f

/-- `Pattern::lazy(lazypos, pos, pos1)` (pattern.cpp:1128-1137): every
position of `pos` fanned out over every lazy tag of `lazypos`. -/
def lazyAll (lazypos pos : Positions) : Positions :=
  (pos.map (fun p => lazypos.map (fun q => p.withLazy q.val))).flatten

/-- `Pattern::greedy(pos)` (pattern.cpp:1139-1146). -/
def greedyAll (pos : Positions) : Positions :=
  pos.map Position.asGreedy

/-- The three quantifier operators handled at pattern.cpp:536. -/
inductive QuantOp where
  | star
  | plus
  | quest
deriving DecidableEq, Repr

/-- The parser state touched by the quantifier step. -/
structure ParseSt where
  firstpos : Positions
  lastpos : Positions
  lazypos : Positions
  nullable : Bool
  follow : FollowMap

/-- `nullable` after line 538-539 (`*` and `?` make the sub-regex
nullable). -/
def quantNullable (op : QuantOp) (st : ParseSt) : Bool :=
  if op = QuantOp.star ∨ op = QuantOp.quest then true else st.nullable

/-- `lazypos` after the lazy-suffix handling (line 542): the location of the
trailing `?` is inserted. -/
def quantLazypos (lazySuffix : Bool) (lazyLoc : Nat) (st : ParseSt) : Positions :=
  if lazySuffix then Position.atLoc lazyLoc :: st.lazypos else st.lazypos

/-- `firstpos` after lines 540-552: with a lazy suffix and a nullable body
the firstpos is replaced by its lazy-tagged fan-out; without a lazy suffix
`greedy(firstpos)` is applied. -/
def quantFirstpos (op : QuantOp) (lazySuffix : Bool) (lazyLoc : Nat)
    (st : ParseSt) : Positions :=
  if lazySuffix then
    (if quantNullable op st then
      lazyAll (quantLazypos lazySuffix lazyLoc st) st.firstpos
    else st.firstpos)
  else greedyAll st.firstpos

/-- The quantifier step of `parse3` for `*`, `+`, `?`
(pattern.cpp lines 536-566). -/
def quantStep (op : QuantOp) (lazySuffix : Bool) (lazyLoc : Nat)
    (st : ParseSt) : ParseSt :=
  let nullable := quantNullable op st
  let lazypos := quantLazypos lazySuffix lazyLoc st
  let firstpos := quantFirstpos op lazySuffix lazyLoc st
  if op = QuantOp.plus ∧ nullable = false ∧ lazypos ≠ [] then
    let firstpos1 := lazyAll lazypos firstpos
    { firstpos := posUnion firstpos firstpos1
      lastpos := st.lastpos
      lazypos := lazypos
      nullable := nullable
      follow := followInsertAll st.follow st.lastpos firstpos1 }
  else if op = QuantOp.star ∨ op = QuantOp.plus then
    { firstpos := firstpos
      lastpos := st.lastpos
      lazypos := lazypos
      nullable := nullable
      follow := followInsertAll st.follow st.lastpos firstpos }
  else
    { firstpos := firstpos
      lastpos := st.lastpos
      lazypos := lazypos
      nullable := nullable
      follow := st.follow }

/-- The parser state right before the quantifier of `a+?` is handled: the
single atom `a` at source location 0, non-nullable, empty follow map. -/
def c6St : ParseSt :=
  { firstpos := [Position.atLoc 0]
    lastpos := [Position.atLoc 0]
    lazypos := []
    nullable := false
    follow := fun _ => [] }

/-! ## Byte character sets and `Pattern::flip` (pattern.cpp lines 1655-1672)

Modelled from the spec: `Chars` (from `pattern.h`, absent here) stores byte
content as merged, sorted, open-ended ranges: a stored pair `(lo, hi)` means
the bytes `lo ≤ b < hi`; the API call `insert(a, b)` records the inclusive
range `[a, b]` as the pair `(a, b + 1)` — compare the `-1 to adjust open
ended [lo,hi)` adjustment at pattern.cpp:1096 when edges are built from
`Chars`.  The iteration in `flip` reads the stored pairs. -/

abbrev CharsR := List (Nat × Nat)

/-- The loop of `Pattern::flip` (pattern.cpp:1660-1669) with running lower
bound `c`: each gap `[c, lo)` before a stored range is emitted
(`if (c < i->first) flip.insert(c, i->first - 1)`), the bound moves to the
range's open end (`c = i->second`), and after the loop the final gap
`[c, 0x100)` is emitted when `c <= 0xff`. -/
def flipGo (c : Nat) : CharsR → CharsR
  | [] => if c ≤ 0xff then [(c, 0x100)] else []
  | (lo, hi) :: rest => (if c < lo then [(c, lo)] else []) ++ flipGo hi rest

/-- `Pattern::flip(chars)`: the byte-alphabet complement. -/
def flipChars (cs : CharsR) : CharsR :=
  flipGo 0 cs

/-- Byte `b` belongs to the stored character set. -/
def memB (b : Nat) (cs : CharsR) : Prop :=
  ∃ r ∈ cs, r.1 ≤ b ∧ b < r.2

/-! ## `Pattern::compact_dfa` (pattern.cpp lines 1685-1711) -/

/-- The inner while loop of `compact_dfa` (pattern.cpp:1694-1708): `t` is
the target of the current outer edge `i`, `hi` the running chain bound
(`Char hi`), `ihi` the outer edge's stored upper bound (`i->second.first`).
Every later edge starting at most one past the chain bound is examined: it
moves the chain bound to its own upper bound, and is erased — extending the
outer edge's stored bound — when it shares the outer edge's target.
Returns the outer edge's final stored bound and the surviving later
edges. -/
def compactInner (t : Option Nat) (hi ihi : Nat) : List Edge → Nat × List Edge
  | [] => (ihi, [])
  | e :: es =>
    if e.lo ≤ hi + 1 then
      if e.tgt = t then compactInner t e.hi e.hi es
      else ((compactInner t e.hi ihi es).1, e :: (compactInner t e.hi ihi es).2)
    else (ihi, e :: es)

/-- The outer loop of `compact_dfa` over one state's ordered edge map
(pattern.cpp:1687-1710): each edge in key order runs the inner merge loop
on the edges after it; an edge whose stored upper bound is already
`≥ 0xff` stops the walk, leaving the remaining edges untouched
(`if (hi >= 0xff) break`). -/
def compactEdges : List Edge → List Edge
  | [] => []
  | e :: es =>
    if 0xff ≤ e.hi then e :: es
    else
      ⟨e.lo, (compactInner e.tgt e.hi e.hi es).1, e.tgt⟩ ::
        compactEdges (compactInner e.tgt e.hi e.hi es).2
termination_by es => es.length
decreasing_by
  have key : ∀ (t : Option Nat) (c i : Nat) (xs : List Edge),
      (compactInner t c i xs).2.length ≤ xs.length := by
    intro t c i xs
    induction xs generalizing c i with
    | nil => simp [compactInner]
    | cons x xs ih =>
      simp only [compactInner]
      by_cases h1 : x.lo ≤ c + 1
      · rw [if_pos h1]
        by_cases h2 : x.tgt = t
        · rw [if_pos h2]
          exact le_trans (ih _ _) (Nat.le_succ _)
        · rw [if_neg h2]
          simpa using Nat.succ_le_succ (ih _ _)
      · rw [if_neg h1]
  simp only [List.length_cons]
  exact Nat.lt_succ_of_le (key _ _ _ _)

/-- `compact_dfa` itself: the merge step applied to every state's edges. -/
def compactDfa (states : List (List Edge)) : List (List Edge) :=
  states.map compactEdges

/-- The maximal chain prefix the inner loop walks: the edges examined while
each starts at most one past the previous chain bound. -/
def runPre (c : Nat) : List Edge → List Edge
  | [] => []
  | e :: es => if e.lo ≤ c + 1 then e :: runPre e.hi es else []

/-- The edges after the chain: left untouched by the inner loop. -/
def runSuf (c : Nat) : List Edge → List Edge
  | [] => []
  | e :: es => if e.lo ≤ c + 1 then runSuf e.hi es else e :: es

/-- The stored upper bound of the outer edge after the inner loop: the `hi`
of the last chain edge sharing the outer target (or the default `d`). -/
def lastHiT (t : Option Nat) (d : Nat) (l : List Edge) : Nat :=
  l.foldl (fun d f => if f.tgt = t then f.hi else d) d

/-- The chain bound after the whole prefix: the `hi` of its last edge (or
the default `d`). -/
def runEnd (d : Nat) (l : List Edge) : Nat :=
  l.foldl (fun _ f => f.hi) d

/-- The chain edges that do *not* share the outer target (the survivors of
the inner loop among the chain). -/
def dropTgt (t : Option Nat) (l : List Edge) : List Edge :=
  l.filter (fun f => f.tgt ≠ t)

/-! ## The DFA builder and encoder (`Pattern::compile`, `Pattern::assemble`)
and their independence from the memory allocator (C8)

The only run-to-run variation between two executions of the compiler on the
same `(pattern, options)` pair is where `new State` places the states; the
algorithm receives those addresses as opaque handles.  The builder is
embedded with the allocator as an explicit parameter (`alloc n` is the
address returned by the `n`-th `new State`); determinism is the statement
that the emitted opcodes do not depend on it.

The parser's output is a function of the input text alone and is taken as
given: `movesOf` is `compile_transition` (the moves of a state, keyed by
its `trim_lazy`-normalized position set, each a disjoint charset with the
follow position set), and `accOf`/`redoOf`/`headsOf`/`tailsOf` are the
accept, redo, lookahead-head and lookahead-tail data `compile_transition`
derives from the same position set.  Position sets are abstracted to their
ordered representation (`List Nat`), compared lexicographically as
`std::set` does. -/

/-- The ordered representation of a state's position set. -/
abbrev PosKey := List Nat

/-- Lexicographic comparison of ordered position sets (`pos < *state`). -/
def keyLt : PosKey → PosKey → Bool
  | [], [] => false
  | [], _ :: _ => true
  | _ :: _, [] => false
  | a :: as, b :: bs => if a < b then true else if b < a then false else keyLt as bs

/-- A builder `State`: defining position set, the `left`/`right` links of
the deduplication tree (addresses), and the committed edges (targets are
addresses). -/
structure StNode where
  key : PosKey
  left : Option Nat
  right : Option Nat
  edges : List Edge
deriving DecidableEq, Repr

/-- The state arena in traversal-list order (`next` chains new states at
the back), keyed by address. -/
abbrev Store := List (Nat × StNode)

def storeGet : Store → Nat → Option StNode
  | [], _ => none
  | p :: σ, a => if p.1 = a then some p.2 else storeGet σ a

def storeSet (σ : Store) (a : Nat) (nd : StNode) : Store :=
  σ.map (fun p => if p.1 = a then (a, nd) else p)

/-- Result of the binary search of the deduplication tree
(pattern.cpp:1064-1077): either the state with an equal position set, or
the branch pointer (`parent`, side) where the new state must be hung. -/
inductive FindRes where
  | found (a : Nat)
  | insertAt (parent : Nat) (isLeft : Bool)
deriving DecidableEq, Repr

/-- The do-while search loop, fuelled (the tree is finite; both runs use
the same fuel `σ.length`). -/
def treeFind (σ : Store) : Nat → Nat → PosKey → Option FindRes
  | 0, _, _ => none
  | fuel + 1, a, key =>
    match storeGet σ a with
    | none => none
    | some nd =>
      if keyLt key nd.key then
        match nd.left with
        | none => some (FindRes.insertAt a true)
        | some l => treeFind σ fuel l key
      else if keyLt nd.key key then
        match nd.right with
        | none => some (FindRes.insertAt a false)
        | some r => treeFind σ fuel r key
      else some (FindRes.found a)

/-- Hang a freshly created state on its parent's branch pointer. -/
def setBranch (σ : Store) (parent : Nat) (isLeft : Bool) (child : Nat) : Store :=
  match storeGet σ parent with
  | none => σ
  | some nd =>
    if isLeft then storeSet σ parent { nd with left := some child }
    else storeSet σ parent { nd with right := some child }

/-- `new State(pos)` (pattern.cpp:1077): look the position set up in the
tree; on a miss allocate the next address, hang it in the tree and append
it to the traversal list.  Returns the store, the creation counter and the
target's address. -/
def findOrInsert (alloc : Nat → Nat) (σ : Store) (count : Nat) (root : Nat)
    (key : PosKey) : Store × Nat × Nat :=
  match treeFind σ σ.length root key with
  | some (FindRes.found a) => (σ, count, a)
  | some (FindRes.insertAt parent isLeft) =>
    let a := alloc count
    (setBranch σ parent isLeft a ++ [(a, ⟨key, none, none, []⟩)], count + 1, a)
  | none => (σ, count, root)

/-- Commit one move's charset as edges of the current state
(pattern.cpp:1094-1098): each stored half-open range `[lo, hi)` becomes the
map entry `edges[lo] = (hi - 1, target)`. -/
def commitEdges (es : List Edge) (ranges : List (Nat × Nat)) (tgt : Nat) :
    List Edge :=
  ranges.foldl (fun es r => edgesInsert ⟨r.1, r.2 - 1, some tgt⟩ es) es

/-- The in-flight builder: the arena and the creation counter. -/
structure BuildSt where
  σ : Store
  count : Nat

/-- One move of the current state `cur` (pattern.cpp:1058-1100): moves with
an empty (trimmed) follow set are dropped; otherwise the target state is
found or created and the charset committed as edges of `cur`. -/
def buildMove (alloc : Nat → Nat) (root cur : Nat) (st : BuildSt)
    (mv : List (Nat × Nat) × PosKey) : BuildSt :=
  if mv.2 = [] then st
  else
    let fi := findOrInsert alloc st.σ st.count root mv.2
    match storeGet fi.1 cur with
    | none => ⟨fi.1, fi.2.1⟩
    | some nd =>
      ⟨storeSet fi.1 cur { nd with edges := commitEdges nd.edges mv.1 fi.2.2 },
        fi.2.1⟩

/-- Process the `w`-th state of the traversal list: fold its moves. -/
def buildStep (alloc : Nat → Nat)
    (movesOf : PosKey → List (List (Nat × Nat) × PosKey)) (root : Nat)
    (st : BuildSt) (w : Nat) : BuildSt :=
  match st.σ[w]? with
  | none => st
  | some p => (movesOf p.2.key).foldl (buildMove alloc root p.1) st

/-- The worklist loop of `Pattern::compile` (pattern.cpp:1042-1108):
states are processed in traversal order, including the ones appended along
the way; the loop ends when the walker reaches the end of the list. -/
def buildLoop (alloc : Nat → Nat)
    (movesOf : PosKey → List (List (Nat × Nat) × PosKey)) (root : Nat) :
    Nat → Nat → BuildSt → BuildSt
  | 0, _, st => st
  | fuel + 1, w, st =>
    if w < st.σ.length then
      buildLoop alloc movesOf root fuel (w + 1) (buildStep alloc movesOf root st w)
    else st

/-- The whole builder from the start state's position set. -/
def build (alloc : Nat → Nat)
    (movesOf : PosKey → List (List (Nat × Nat) × PosKey))
    (startKey : PosKey) (fuel : Nat) : BuildSt :=
  buildLoop alloc movesOf (alloc 0) fuel 0
    ⟨[(alloc 0, ⟨startKey, none, none, []⟩)], 1⟩

/-- Modelled from the spec: the opcode forms of §3 (`HALT` is the `GOTO`
with the `IMAX` target, written `none`); the 32-bit packing lives in
`pattern.h` and is outside the embedding. -/
inductive Opcode where
  | redo
  | take (rule : Nat)
  | tail (idx : Nat)
  | head (idx : Nat)
  | goto (lo hi : Nat) (target : Option Nat)
deriving DecidableEq, Repr

/-- The per-state data `compile_transition` computes from the position set,
supplied to the encoder: accept rule, redo flag, lookahead heads and tails
(each a pure function of the position set). -/
structure StOracles where
  movesOf : PosKey → List (List (Nat × Nat) × PosKey)
  accOf : PosKey → Nat
  redoOf : PosKey → Bool
  headsOf : PosKey → List Nat
  tailsOf : PosKey → List Nat

/-- Opcodes taken by one edge: meta edges (`lo > 0xff`) expand to one
`GOTO` per code point (pattern.cpp:1725-1726, 1762-1767). -/
def metaSpan (e : Edge) : Nat :=
  if 0xff < e.lo then e.hi - e.lo + 1 else 1

/-- Opcodes taken by one state (pattern.cpp:1719-1734): its edges (with
the dead-state edge already inserted), the tails, the heads, and the
accept/redo slot. -/
def stateCount (oc : StOracles) (key : PosKey) (es : List Edge) : Nat :=
  (es.map metaSpan).sum + (oc.headsOf key).length + (oc.tailsOf key).length +
    (if 0 < oc.accOf key ∨ oc.redoOf key = true then 1 else 0)

/-- First pass of `encode_dfa`: each state's `index` is the opcode count
before it (pattern.cpp:1718). -/
def indexList (oc : StOracles) : Store → Nat → List (Nat × Nat)
  | [], _ => []
  | (a, nd) :: σ, n => (a, n) :: indexList oc σ (n + stateCount oc nd.key nd.edges)

def lookupIndex : List (Nat × Nat) → Nat → Option Nat
  | [], _ => none
  | p :: il, a => if p.1 = a then some p.2 else lookupIndex il a

/-- Second pass, one edge (pattern.cpp:1751-1770): reverse order is applied
by the caller; a null target encodes the `HALT`/`IMAX` target. -/
def emitEdge (il : List (Nat × Nat)) (e : Edge) : List Opcode :=
  match e.tgt with
  | none =>
    if 0xff < e.lo then
      (List.range (e.hi - e.lo + 1)).map (fun k => Opcode.goto (e.lo + k) (e.lo + k) none)
    else [Opcode.goto e.lo e.hi none]
  | some a =>
    if 0xff < e.lo then
      (List.range (e.hi - e.lo + 1)).map
        (fun k => Opcode.goto (e.lo + k) (e.lo + k) (lookupIndex il a))
    else [Opcode.goto e.lo e.hi (lookupIndex il a)]

/-- Second pass, one state (pattern.cpp:1741-1771): `REDO` or `TAKE`, the
tails, the heads, then the edges in reverse key order. -/
def emitState (oc : StOracles) (il : List (Nat × Nat)) (key : PosKey)
    (es : List Edge) : List Opcode :=
  (if oc.redoOf key then [Opcode.redo]
   else if 0 < oc.accOf key then [Opcode.take (oc.accOf key)] else []) ++
    (oc.tailsOf key).map Opcode.tail ++ (oc.headsOf key).map Opcode.head ++
    (es.reverse.map (emitEdge il)).flatten

/-- `compact_dfa` plus the dead-state step of `encode_dfa` applied to every
state of the arena. -/
def deadStore (σ : Store) : Store :=
  σ.map (fun p => (p.1, { p.2 with edges := withDead (compactEdges p.2.edges) }))

/-- The emission loop of `encode_dfa` over the whole arena. -/
def emitAll (oc : StOracles) (σd : Store) : List Opcode :=
  (σd.map (fun p => emitState oc (indexList oc σd 0) p.2.key p.2.edges)).flatten

/-- The compile-and-assemble pipeline: build the DFA, compact every state's
edges, insert the dead-state edges, assign indices, emit
(`Pattern::compile` then `Pattern::assemble`, export steps aside). -/
def pipeline (alloc : Nat → Nat) (oc : StOracles) (startKey : PosKey)
    (fuel : Nat) : List Opcode :=
  emitAll oc (deadStore (build alloc oc.movesOf startKey fuel).σ)

/-! Address renaming: the device relating two runs of the builder that
differ only in the allocator. -/

def renameEdge (φ : Nat → Nat) (e : Edge) : Edge :=
  { e with tgt := e.tgt.map φ }

def renameNode (φ : Nat → Nat) (nd : StNode) : StNode :=
  { key := nd.key
    left := nd.left.map φ
    right := nd.right.map φ
    edges := nd.edges.map (renameEdge φ) }

def renameStore (φ : Nat → Nat) (σ : Store) : Store :=
  σ.map (fun p => (φ p.1, renameNode φ p.2))

def renameSt (φ : Nat → Nat) (st : BuildSt) : BuildSt :=
  ⟨renameStore φ st.σ, st.count⟩

def renameRes (φ : Nat → Nat) : FindRes → FindRes
  | FindRes.found a => FindRes.found (φ a)
  | FindRes.insertAt p s => FindRes.insertAt (φ p) s

/-- The positions of the state the builder reaches from `(?^a)|a` after
reading `a`: the rule-0 redo marker (from the negative pattern), the rule-1
marker and the rule-2 marker, in the ascending order of the ordered set. -/
def c2State : List Position :=
  [Position.acceptMark 0, Position.acceptMark 1, Position.acceptMark 2]

/-- The fold at pattern.cpp:1208-1209 restricted to the accepts values
(acc ← a when acc = 0 or a < acc). -/
def foldAcc (acc : Nat) (l : List Nat) : Nat :=
  l.foldl (fun acc a => if acc = 0 ∨ a < acc then a else acc) acc

end Reflex

namespace Reflex

/-! # Theorems -/

/-- **C1.** For every error raised during compilation: a `CODE_OVERFLOW`
error is thrown to the caller regardless of option `r`; every other error
code is thrown if and only if option `r` is set
(`Pattern::error`, pattern.cpp lines 131-138). -/
theorem c1_error_throw_policy (r : Bool) (code : ErrCode)
    (h : code ≠ ErrCode.CODE_OVERFLOW) :
    errorThrows r ErrCode.CODE_OVERFLOW = true ∧ (errorThrows r code = r) := by
  constructor
  · simp [errorThrows]
  · simp [errorThrows, h]

/-- Witness for `c1_error_throw_policy` at `r = false`,
`code = REGEX_SYNTAX`. -/
theorem c1_error_throw_policy_witness :
    ErrCode.REGEX_SYNTAX ≠ ErrCode.CODE_OVERFLOW ∧
      (errorThrows false ErrCode.CODE_OVERFLOW = true ∧
        errorThrows false ErrCode.REGEX_SYNTAX = false) :=
  ⟨by decide, c1_error_throw_policy false ErrCode.REGEX_SYNTAX (by decide)⟩

/-! ### C2: the accept field of a state -/

/-- **C2, counterexample.** On the state `{(0),(1),(2)}` reached from the
pattern `(?^a)|a` after reading `a`, the fold of `compile_transition` sets
`accept = 1`, while the minimum of the accepts values over all accepting
positions of the state is `0` (the redo marker counts as an accepting
position): the claim's equality fails. -/
theorem c2_accept_min_counterexample :
    transAccept c2State = 1 ∧ claimMinAccepts c2State = 0 := by
  constructor <;> rfl

theorem foldl_acceptStep_eq (ps : List Position) :
    ∀ acc : Nat, ps.foldl acceptStep acc = foldAcc acc (acceptsList ps) := by
  induction ps with
  | nil => intro acc; rfl
  | cons p ps ih =>
    intro acc
    by_cases hp : p.accept
    · have h1 : acceptStep acc p =
          if acc = 0 ∨ p.accepts < acc then p.accepts else acc := by
        simp [acceptStep, hp]
      have h2 : acceptsList (p :: ps) = p.accepts :: acceptsList ps := by
        simp [acceptsList, List.filter_cons, hp]
      rw [List.foldl_cons, h1, h2]
      rw [show foldAcc acc (p.accepts :: acceptsList ps) =
          foldAcc (if acc = 0 ∨ p.accepts < acc then p.accepts else acc)
            (acceptsList ps) from rfl]
      exact ih _
    · have h1 : acceptStep acc p = acc := by
        simp [acceptStep, hp]
      have h2 : acceptsList (p :: ps) = acceptsList ps := by
        simp [acceptsList, List.filter_cons, hp]
      rw [List.foldl_cons, h1, h2]
      exact ih acc

theorem foldl_min_const {a : Nat} :
    ∀ l : List Nat, (∀ x ∈ l, a ≤ x) → l.foldl Nat.min a = a := by
  intro l
  induction l with
  | nil => intro _; rfl
  | cons b t ih =>
    intro h
    have hab : a ≤ b := h b (by simp)
    have : Nat.min a b = a := Nat.min_eq_left hab
    simp only [List.foldl_cons, this]
    exact ih (fun x hx => h x (by simp [hx]))

theorem foldAcc_pos_const {a : Nat} (ha : a ≠ 0) :
    ∀ l : List Nat, (∀ x ∈ l, a ≤ x) → foldAcc a l = a := by
  intro l
  induction l with
  | nil => intro _; rfl
  | cons b t ih =>
    intro h
    have hab : a ≤ b := h b (by simp)
    have hcond : ¬(a = 0 ∨ b < a) := by
      push_neg
      exact ⟨ha, hab⟩
    simp only [foldAcc, List.foldl_cons, if_neg hcond]
    exact ih (fun x hx => h x (by simp [hx]))

theorem foldAcc_sorted_eq_minNonzero :
    ∀ l : List Nat, l.Sorted (· ≤ ·) → foldAcc 0 l = minNonzero l := by
  intro l
  induction l with
  | nil => intro _; rfl
  | cons a t ih =>
    intro hs
    have hta := List.sorted_cons.mp hs
    by_cases ha : a = 0
    · subst ha
      have h0 : foldAcc 0 (0 :: t) = foldAcc 0 t := by
        simp [foldAcc]
      rw [h0, ih hta.2]
      simp [minNonzero, List.filter_cons]
    · have h1 : foldAcc 0 (a :: t) = foldAcc a t := by
        simp [foldAcc]
      have h2 : minNonzero (a :: t) = (t.filter (fun b => b ≠ 0)).foldl Nat.min a := by
        simp [minNonzero, List.filter_cons, ha]
      rw [h1, foldAcc_pos_const ha t hta.1, h2]
      exact (foldl_min_const _ (fun x hx => hta.1 x (List.mem_of_mem_filter hx))).symm

/-- **C2, amended.** For every DFA state whose positions are iterated in the
order of the ordered `Positions` set (hypothesis: the accepts values of its
accepting positions come in ascending order), the `accept` field set by
`compile_transition` equals the minimum of the **nonzero** accepts values
over the accepting positions, and is `0` when the state has no accepting
position with a nonzero rule (a rule-0 redo marker does not survive as the
minimum). -/
theorem c2_accept_min_nonzero (ps : List Position)
    (hs : (acceptsList ps).Sorted (· ≤ ·)) :
    transAccept ps = minNonzero (acceptsList ps) := by
  rw [transAccept, foldl_acceptStep_eq ps 0]
  exact foldAcc_sorted_eq_minNonzero _ hs

/-- Witness for `c2_accept_min_nonzero` on the `(?^a)|a` state. -/
theorem c2_accept_min_nonzero_witness :
    (acceptsList c2State).Sorted (· ≤ ·) ∧
      transAccept c2State = minNonzero (acceptsList c2State) :=
  ⟨by decide, c2_accept_min_nonzero c2State (by decide)⟩

/-! ### C9: `Pattern::operator[]` -/

/-- **C9.** `Pattern::operator[](0)` returns the whole regex source;
for `1 ≤ choice ≤ N` (with `N` the number of recorded rule endpoints) it
returns the source slice of rule `choice` delimited by the recorded
endpoints; for `choice > N` it returns the empty string
(pattern.cpp lines 116-129). -/
theorem c9_operator_index (rex : List Char) (ends : List Nat) (choice : Nat) :
    (choice = 0 → patternSub rex ends choice = rex) ∧
      (1 ≤ choice ∧ choice ≤ ends.length →
        patternSub rex ends choice = ruleSlice rex ends choice) ∧
      (ends.length < choice → patternSub rex ends choice = []) := by
  refine ⟨fun h0 => by simp [patternSub, h0], fun ⟨h1, h2⟩ => ?_, fun hgt => ?_⟩
  · have hne : ¬ choice = 0 := by omega
    simp only [patternSub, ruleSlice, if_neg hne, if_pos (And.intro h1 h2)]
    by_cases hc : 2 ≤ choice
    · have : ¬ choice ≤ 1 := by omega
      simp [hc, this]
    · have : choice ≤ 1 := by omega
      simp [hc, this]
  · have hne : ¬ choice = 0 := by omega
    have : ¬ (1 ≤ choice ∧ choice ≤ ends.length) := by omega
    simp [patternSub, hne, this]

/-- Witness for `c9_operator_index`: the pattern `ab|cd` with endpoints
`{2, 5}`, rule 1. -/
theorem c9_operator_index_witness :
    (1 ≤ 1 ∧ 1 ≤ [2, 5].length) ∧
      patternSub [ 'a', 'b', '|', 'c', 'd' ] [2, 5] 1 =
        ruleSlice [ 'a', 'b', '|', 'c', 'd' ] [2, 5] 1 :=
  ⟨by decide,
    (c9_operator_index [ 'a', 'b', '|', 'c', 'd' ] [2, 5] 1).2.1 ⟨by decide, by decide⟩⟩

/-! ### C3: nested lookaheads -/

/-- **C3, counterexample.** The trace of `(?=a(?=b)c)`: the inner lookahead
is recorded first as the range `(4, 8)`; when the outer `(?=` closes, the
rule's range set already meets the outer range `(0, 10)`, and the recording
step returns `ok` with the set unchanged — no error is raised and no second
range is recorded, refuting the claim that this situation raises an error. -/
theorem c3_nested_lookahead_counterexample :
    rangesFind [(4, 8)] 0 10 ≠ none ∧
      parse4LookaheadRecord [(4, 8)] 0 10 = Except.ok [(4, 8)] := by
  constructor
  · decide
  · rfl

/-- **C3, amended.** When the rule's lookahead range set already meets the
new lookahead's range, `parse4` silently skips the recording: the range set
is returned unchanged and no error is raised
(pattern.cpp lines 754-755). -/
theorem c3_nested_lookahead_skipped (rs : LookRanges) (lo hi : Nat)
    (h : rangesFind rs lo hi ≠ none) :
    parse4LookaheadRecord rs lo hi = Except.ok rs := by
  simp [parse4LookaheadRecord, h]

/-- Witness for `c3_nested_lookahead_skipped` on the `(?=a(?=b)c)` trace. -/
theorem c3_nested_lookahead_skipped_witness :
    rangesFind [(4, 8)] 0 10 ≠ none ∧
      parse4LookaheadRecord [(4, 8)] 0 10 = Except.ok [(4, 8)] :=
  ⟨by decide, c3_nested_lookahead_skipped [(4, 8)] 0 10 (by decide)⟩

/-! ### C4: modifier group flag scoping -/

theorem applyFlag_b (o : Opts) (c : Char) : (applyFlag o c).b = o.b := by
  unfold applyFlag; split_ifs <;> rfl

theorem applyFlag_r (o : Opts) (c : Char) : (applyFlag o c).r = o.r := by
  unfold applyFlag; split_ifs <;> rfl

theorem applyFlag_w (o : Opts) (c : Char) : (applyFlag o c).w = o.w := by
  unfold applyFlag; split_ifs <;> rfl

theorem applyFlag_l (o : Opts) (c : Char) :
    (applyFlag o c).l = (o.l || (c == 'l')) := by
  unfold applyFlag
  split_ifs with h1 h2 h3 h4 h5 h6 <;> simp_all

theorem applyFlags_b (flags : List Char) :
    ∀ o : Opts, (applyFlags o flags).b = o.b := by
  induction flags with
  | nil => intro o; rfl
  | cons c t ih =>
    intro o
    show (applyFlags (applyFlag o c) t).b = o.b
    rw [ih (applyFlag o c), applyFlag_b]

theorem applyFlags_r (flags : List Char) :
    ∀ o : Opts, (applyFlags o flags).r = o.r := by
  induction flags with
  | nil => intro o; rfl
  | cons c t ih =>
    intro o
    show (applyFlags (applyFlag o c) t).r = o.r
    rw [ih (applyFlag o c), applyFlag_r]

theorem applyFlags_w (flags : List Char) :
    ∀ o : Opts, (applyFlags o flags).w = o.w := by
  induction flags with
  | nil => intro o; rfl
  | cons c t ih =>
    intro o
    show (applyFlags (applyFlag o c) t).w = o.w
    rw [ih (applyFlag o c), applyFlag_w]

theorem applyFlags_l (flags : List Char) :
    ∀ o : Opts, (applyFlags o flags).l = (o.l || flags.contains 'l') := by
  induction flags with
  | nil => intro o; simp [applyFlags]
  | cons c t ih =>
    intro o
    show (applyFlags (applyFlag o c) t).l = _
    rw [ih (applyFlag o c), applyFlag_l]
    by_cases h : c = 'l'
    · simp [List.contains_cons, Bool.or_assoc, h]
    · have hb : (c == 'l') = false := beq_eq_false_iff_ne.mpr h
      simp [List.contains_cons, Bool.or_assoc, hb, Ne.symm h]

/-- **C4, counterexample.** The non-global group `(?l:a)` (all options off at
entry): the flag loop accepts `l` and sets `opt_.l`, but the restore at group
close (pattern.cpp lines 841-845) resets only `i`, `q`, `m`, `s`, `x` — so
the option record is *not* unchanged at group close: `l` stays set. -/
theorem c4_modifier_restore_counterexample :
    modifierGroup ⟨false, false, false, false, false, false, false, false, false⟩ ['l'] ≠
        ⟨false, false, false, false, false, false, false, false, false⟩ ∧
      (modifierGroup ⟨false, false, false, false, false, false, false, false, false⟩
          ['l']).l = true := by
  constructor
  · decide
  · rfl

/-- **C4, amended.** After a non-global modifier group closes, the fields
`i`, `m`, `q`, `s`, `x` are restored to their pre-group values (and `b`,
`r`, `w` were never touched); the field `l`, however, is *not* restored: it
remains set whenever the group's flag list contained `l`. -/
theorem c4_modifier_restore_except_l (o : Opts) (flags : List Char) :
    (modifierGroup o flags).i = o.i ∧ (modifierGroup o flags).m = o.m ∧
      (modifierGroup o flags).q = o.q ∧ (modifierGroup o flags).s = o.s ∧
      (modifierGroup o flags).x = o.x ∧ (modifierGroup o flags).b = o.b ∧
      (modifierGroup o flags).r = o.r ∧ (modifierGroup o flags).w = o.w ∧
      (modifierGroup o flags).l = (o.l || flags.contains 'l') := by
  refine ⟨rfl, rfl, rfl, rfl, rfl, ?_, ?_, ?_, ?_⟩
  · show (applyFlags o flags).b = o.b
    exact applyFlags_b flags o
  · show (applyFlags o flags).r = o.r
    exact applyFlags_r flags o
  · show (applyFlags o flags).w = o.w
    exact applyFlags_w flags o
  · show (applyFlags o flags).l = _
    exact applyFlags_l flags o

/-! ### C5: the dead-state (HALT) edge of `encode_dfa` -/

theorem scanFrom_stuck :
    ∀ (es : List Edge) (c : Nat), (∀ f ∈ es, f.lo ≠ c) → scanFrom c es = c := by
  intro es
  induction es with
  | nil => intro c _; rfl
  | cons e es ih =>
    intro c h
    have he : e.lo ≠ c := h e (by simp)
    show scanFrom (if e.lo = c then e.hi + 1 else c) es = c
    rw [if_neg he]
    exact ih c (fun f hf => h f (by simp [hf]))

theorem scanFrom_le :
    ∀ (es : List Edge) (c : Nat), (∀ e ∈ es, e.lo ≤ e.hi) → c ≤ scanFrom c es := by
  intro es
  induction es with
  | nil => intro c _; exact le_refl c
  | cons e es ih =>
    intro c hw
    show c ≤ scanFrom (if e.lo = c then e.hi + 1 else c) es
    have hw' : ∀ f ∈ es, f.lo ≤ f.hi := fun f hf => hw f (by simp [hf])
    by_cases he : e.lo = c
    · rw [if_pos he]
      have h1 : c ≤ e.hi + 1 := by
        have := hw e (by simp)
        omega
      exact le_trans h1 (ih _ hw')
    · rw [if_neg he]
      exact ih c hw'

theorem scanFrom_fresh :
    ∀ (es : List Edge) (c : Nat),
      List.Pairwise (fun a b => a.hi < b.lo) es →
      (∀ e ∈ es, e.lo ≤ e.hi) →
      (∀ e ∈ es, c ≤ e.lo) →
      ∀ f ∈ es, f.lo ≠ scanFrom c es := by
  intro es
  induction es with
  | nil => intro c _ _ _ f hf; cases hf
  | cons e es ih =>
    intro c hp hw hc f hf
    have hpe := (List.pairwise_cons.mp hp).1
    have hp' := (List.pairwise_cons.mp hp).2
    have hwe : e.lo ≤ e.hi := hw e (by simp)
    have hw' : ∀ g ∈ es, g.lo ≤ g.hi := fun g hg => hw g (by simp [hg])
    by_cases he : e.lo = c
    · have hstep : scanFrom c (e :: es) = scanFrom (e.hi + 1) es := by
        show scanFrom (if e.lo = c then e.hi + 1 else c) es = _
        rw [if_pos he]
      rw [hstep]
      rcases List.mem_cons.mp hf with rfl | hf'
      · have := scanFrom_le es (f.hi + 1) hw'
        omega
      · exact ih (e.hi + 1) hp' hw' (fun g hg => by have := hpe g hg; omega) f hf'
    · have hc' : c < e.lo := by
        have := hc e (by simp)
        omega
      have hstuck : scanFrom c (e :: es) = c := by
        apply scanFrom_stuck
        intro g hg
        rcases List.mem_cons.mp hg with rfl | hg'
        · exact he
        · have := hpe g hg'
          omega
      rw [hstuck]
      rcases List.mem_cons.mp hf with rfl | hf'
      · exact he
      · have := hpe f hf'
        omega

theorem scanFrom_covers :
    ∀ (es : List Edge) (c : Nat),
      List.Pairwise (fun a b => a.hi < b.lo) es →
      (∀ e ∈ es, e.lo ≤ e.hi) →
      (∀ e ∈ es, c ≤ e.lo) →
      (0x100 ≤ scanFrom c es ↔
        ∀ b, c ≤ b → b < 0x100 → ∃ e ∈ es, e.lo ≤ b ∧ b ≤ e.hi) := by
  intro es
  induction es with
  | nil =>
    intro c _ _ _
    show 0x100 ≤ c ↔ _
    constructor
    · intro h b hcb hb
      omega
    · intro h
      by_contra hcc
      push_neg at hcc
      rcases h c (le_refl c) (by omega) with ⟨e, he, _⟩
      cases he
  | cons e es ih =>
    intro c hp hw hc
    have hpe := (List.pairwise_cons.mp hp).1
    have hp' := (List.pairwise_cons.mp hp).2
    have hwe : e.lo ≤ e.hi := hw e (by simp)
    have hw' : ∀ g ∈ es, g.lo ≤ g.hi := fun g hg => hw g (by simp [hg])
    by_cases he : e.lo = c
    · have hstep : scanFrom c (e :: es) = scanFrom (e.hi + 1) es := by
        show scanFrom (if e.lo = c then e.hi + 1 else c) es = _
        rw [if_pos he]
      rw [hstep,
        ih (e.hi + 1) hp' hw' (fun g hg => by have := hpe g hg; omega)]
      constructor
      · intro h b hcb hb
        by_cases hbe : b ≤ e.hi
        · exact ⟨e, by simp, by omega, hbe⟩
        · rcases h b (by omega) hb with ⟨f, hf, h1, h2⟩
          exact ⟨f, by simp [hf], h1, h2⟩
      · intro h b hcb hb
        rcases h b (by omega) hb with ⟨f, hf, h1, h2⟩
        rcases List.mem_cons.mp hf with rfl | hf'
        · omega
        · exact ⟨f, hf', h1, h2⟩
    · have hc' : c < e.lo := by
        have := hc e (by simp)
        omega
      have hstuck : scanFrom c (e :: es) = c := by
        apply scanFrom_stuck
        intro g hg
        rcases List.mem_cons.mp hg with rfl | hg'
        · exact he
        · have := hpe g hg'
          omega
      rw [hstuck]
      constructor
      · intro h b hcb hb
        omega
      · intro h
        by_contra hcc
        push_neg at hcc
        rcases h c (le_refl c) (by omega) with ⟨f, hf, h1, h2⟩
        rcases List.mem_cons.mp hf with rfl | hf'
        · omega
        · have := hpe f hf'
          omega

theorem edgesInsert_length :
    ∀ (es : List Edge) (e : Edge), (∀ f ∈ es, f.lo ≠ e.lo) →
      (edgesInsert e es).length = es.length + 1 := by
  intro es
  induction es with
  | nil => intro e _; rfl
  | cons f fs ih =>
    intro e h
    have hne : ¬ e.lo = f.lo := fun hh => h f (by simp) hh.symm
    show (if e.lo < f.lo then e :: f :: fs
        else if e.lo = f.lo then e :: fs
        else f :: edgesInsert e fs).length = (f :: fs).length + 1
    by_cases h1 : e.lo < f.lo
    · rw [if_pos h1]
      simp
    · rw [if_neg h1, if_neg hne]
      simp only [List.length_cons]
      rw [ih e (fun g hg => h g (by simp [hg]))]

theorem edgesInsert_mem :
    ∀ (es : List Edge) (e : Edge), e ∈ edgesInsert e es := by
  intro es
  induction es with
  | nil => intro e; simp [edgesInsert]
  | cons f fs ih =>
    intro e
    show e ∈ (if e.lo < f.lo then e :: f :: fs
        else if e.lo = f.lo then e :: fs
        else f :: edgesInsert e fs)
    by_cases h1 : e.lo < f.lo
    · rw [if_pos h1]; simp
    · rw [if_neg h1]
      by_cases h2 : e.lo = f.lo
      · rw [if_pos h2]; simp
      · rw [if_neg h2]
        exact List.mem_cons_of_mem f (ih e)

/-- **C5, counterexample.** The state whose single edge is `[1, 0xff] → 0`
(the start state of `[^\x00]`, say): its edges cover byte `0xff`, yet
`encode_dfa` still adds the HALT edge — at key `0`, upper bound `0xff`,
null target — because the frontier scan starts at `0` and the edges do not
cover byte `0`.  The claimed "if and only if the edges do not cover `0xff`"
fails. -/
theorem c5_halt_edge_counterexample :
    coversFF [⟨1, 0xff, some 0⟩] ∧
      encodeAddsHalt [⟨1, 0xff, some 0⟩] = true ∧
      withDead [⟨1, 0xff, some 0⟩] =
        [⟨0, 0xff, none⟩, ⟨1, 0xff, some 0⟩] := by
  refine ⟨⟨⟨1, 0xff, some 0⟩, by simp, by decide, by decide⟩, by decide, by decide⟩

/-- **C5, amended.** For every state with pairwise-disjoint, sorted,
well-formed edges (the builder invariant): `encode_dfa` adds **no** HALT
edge iff the edges contiguously cover every byte `0x00..0xff`; otherwise it
adds exactly one extra edge — the frontier as key, upper bound `0xff`, null
target (pattern.cpp:1719-1733). -/
theorem c5_halt_edge_iff_gap (edges : List Edge)
    (hp : List.Pairwise (fun a b => a.hi < b.lo) edges)
    (hw : ∀ e ∈ edges, e.lo ≤ e.hi) :
    (encodeAddsHalt edges = false ↔
        ∀ b, b < 0x100 → ∃ e ∈ edges, e.lo ≤ b ∧ b ≤ e.hi) ∧
      (encodeAddsHalt edges = true →
        withDead edges = edgesInsert ⟨scanFrom 0 edges, 0xff, none⟩ edges ∧
          (withDead edges).length = edges.length + 1 ∧
          Edge.mk (scanFrom 0 edges) 0xff none ∈ withDead edges) := by
  have hcov := scanFrom_covers edges 0 hp hw (fun e _ => Nat.zero_le _)
  constructor
  · constructor
    · intro h b hb
      have hge : 0x100 ≤ scanFrom 0 edges := by
        simp only [encodeAddsHalt, decide_eq_false_iff_not, not_le] at h
        omega
      exact hcov.mp hge b (Nat.zero_le b) hb
    · intro h
      have hge : 0x100 ≤ scanFrom 0 edges :=
        hcov.mpr (fun b _ hb => h b hb)
      simp only [encodeAddsHalt, decide_eq_false_iff_not, not_le]
      omega
  · intro h
    have hle : scanFrom 0 edges ≤ 0xff := by
      simpa [encodeAddsHalt] using h
    have hfresh : ∀ f ∈ edges, f.lo ≠ scanFrom 0 edges :=
      scanFrom_fresh edges 0 hp hw (fun e _ => Nat.zero_le _)
    have hwd : withDead edges = edgesInsert ⟨scanFrom 0 edges, 0xff, none⟩ edges := by
      simp [withDead, hle]
    refine ⟨hwd, ?_, ?_⟩
    · rw [hwd]
      exact edgesInsert_length edges _ (fun f hf => hfresh f hf)
    · rw [hwd]
      exact edgesInsert_mem edges _

/-- Witness for `c5_halt_edge_iff_gap`: the one-edge state `[0x41,0x5a] → 1`. -/
theorem c5_halt_edge_iff_gap_witness :
    (List.Pairwise (fun a b => a.hi < b.lo) [Edge.mk 0x41 0x5a (some 1)] ∧
        ∀ e ∈ [Edge.mk 0x41 0x5a (some 1)], e.lo ≤ e.hi) ∧
      ((encodeAddsHalt [Edge.mk 0x41 0x5a (some 1)] = false ↔
          ∀ b, b < 0x100 → ∃ e ∈ [Edge.mk 0x41 0x5a (some 1)], e.lo ≤ b ∧ b ≤ e.hi) ∧
        (encodeAddsHalt [Edge.mk 0x41 0x5a (some 1)] = true →
          withDead [Edge.mk 0x41 0x5a (some 1)] =
              edgesInsert ⟨scanFrom 0 [Edge.mk 0x41 0x5a (some 1)], 0xff, none⟩
                [Edge.mk 0x41 0x5a (some 1)] ∧
            (withDead [Edge.mk 0x41 0x5a (some 1)]).length =
              [Edge.mk 0x41 0x5a (some 1)].length + 1 ∧
            Edge.mk (scanFrom 0 [Edge.mk 0x41 0x5a (some 1)]) 0xff none ∈
              withDead [Edge.mk 0x41 0x5a (some 1)])) :=
  ⟨⟨by decide, by decide⟩,
    c5_halt_edge_iff_gap [Edge.mk 0x41 0x5a (some 1)] (by decide) (by decide)⟩

/-! ### C6: the quantifier follow-closure -/

theorem setInsertF_mem_self (f : FollowMap) (k : Position) (new : Positions)
    (q : Position) (hq : q ∈ new) : q ∈ setInsertF f k new k := by
  simp [setInsertF, posUnion, hq]

theorem setInsertF_mono (f : FollowMap) (k : Position) (new : Positions)
    (a q : Position) (h : q ∈ f a) : q ∈ setInsertF f k new a := by
  by_cases hak : a = k
  · subst hak
    simp [setInsertF, posUnion, h]
  · simp [setInsertF, hak, h]

theorem followInsertAll_mono (new : Positions) :
    ∀ (keys : Positions) (f : FollowMap) (a q : Position),
      q ∈ f a → q ∈ followInsertAll f keys new a := by
  intro keys
  induction keys with
  | nil => intro f a q h; exact h
  | cons k ks ih =>
    intro f a q h
    show q ∈ followInsertAll (setInsertF f k.pos new) ks new a
    exact ih _ a q (setInsertF_mono f k.pos new a q h)

theorem followInsertAll_mem (new : Positions) :
    ∀ (keys : Positions) (f : FollowMap) (p : Position),
      p ∈ keys → ∀ q ∈ new, q ∈ followInsertAll f keys new p.pos := by
  intro keys
  induction keys with
  | nil => intro f p hp; cases hp
  | cons k ks ih =>
    intro f p hp q hq
    rcases List.mem_cons.mp hp with rfl | hp'
    · show q ∈ followInsertAll (setInsertF f p.pos new) ks new p.pos
      exact followInsertAll_mono new ks _ p.pos q
        (setInsertF_mem_self f p.pos new q hq)
    · show q ∈ followInsertAll (setInsertF f k.pos new) ks new p.pos
      exact ih _ p hp' q hq

/-- **C6, counterexample.** The sub-regex `a+?` (atom `a` at location 0,
`+` with a lazy suffix at location 2, non-nullable body): after the
quantifier step, `firstpos` holds both the bare atom and its lazy-tagged
copy, but `followpos[a]` only received the lazy-tagged copy — the bare
member of `firstpos` is missing, so `followpos[p] ⊇ firstpos` fails for
`p ∈ lastpos`. -/
theorem c6_follow_closure_counterexample :
    ¬ (∀ p ∈ (quantStep QuantOp.plus true 2 c6St).lastpos,
        ∀ q ∈ (quantStep QuantOp.plus true 2 c6St).firstpos,
          q ∈ (quantStep QuantOp.plus true 2 c6St).follow p.pos) := by
  intro h
  have h1 := h (Position.atLoc 0) (by decide) (Position.atLoc 0) (by decide)
  revert h1
  decide

/-- **C6, amended.** For a sub-regex quantified by `*` or `+`: except in the
case of a lazy `+` on a non-nullable body, every `p ∈ lastpos` gets
`followpos[p] ⊇ firstpos` (the classical closure, with `firstpos` the
greedy- or lazy-marked firstpos the step leaves behind).  In the excepted
case (pattern.cpp lines 553-560), `followpos[p]` instead receives the
lazy-tagged fan-out `lazy(lazypos, firstpos)`, and `firstpos` becomes the
union of the previous `firstpos` with that fan-out. -/
theorem c6_follow_closure_cases (op : QuantOp) (ls : Bool) (ll : Nat)
    (st : ParseSt) (hop : op = QuantOp.star ∨ op = QuantOp.plus) :
    (¬(op = QuantOp.plus ∧ quantNullable op st = false ∧
          quantLazypos ls ll st ≠ []) →
      ∀ p ∈ st.lastpos, ∀ q ∈ (quantStep op ls ll st).firstpos,
        q ∈ (quantStep op ls ll st).follow p.pos) ∧
      ((op = QuantOp.plus ∧ quantNullable op st = false ∧
          quantLazypos ls ll st ≠ []) →
        (∀ p ∈ st.lastpos,
          ∀ q ∈ lazyAll (quantLazypos ls ll st) (quantFirstpos op ls ll st),
            q ∈ (quantStep op ls ll st).follow p.pos) ∧
        (quantStep op ls ll st).firstpos =
          posUnion (quantFirstpos op ls ll st)
            (lazyAll (quantLazypos ls ll st) (quantFirstpos op ls ll st))) := by
  constructor
  · intro hC p hp q hq
    simp only [quantStep, if_neg hC, if_pos hop] at hq ⊢
    exact followInsertAll_mem _ st.lastpos st.follow p hp q hq
  · intro hC
    refine ⟨fun p hp q hq => ?_, ?_⟩
    · simp only [quantStep, if_pos hC]
      exact followInsertAll_mem _ st.lastpos st.follow p hp q hq
    · simp only [quantStep, if_pos hC]

/-- Witness for `c6_follow_closure_cases` at the `a+?` instance. -/
theorem c6_follow_closure_cases_witness :
    (QuantOp.plus = QuantOp.star ∨ QuantOp.plus = QuantOp.plus) ∧
      ((¬(QuantOp.plus = QuantOp.plus ∧
            quantNullable QuantOp.plus c6St = false ∧
            quantLazypos true 2 c6St ≠ []) →
          ∀ p ∈ c6St.lastpos,
            ∀ q ∈ (quantStep QuantOp.plus true 2 c6St).firstpos,
              q ∈ (quantStep QuantOp.plus true 2 c6St).follow p.pos) ∧
        ((QuantOp.plus = QuantOp.plus ∧
            quantNullable QuantOp.plus c6St = false ∧
            quantLazypos true 2 c6St ≠ []) →
          (∀ p ∈ c6St.lastpos,
            ∀ q ∈ lazyAll (quantLazypos true 2 c6St)
                (quantFirstpos QuantOp.plus true 2 c6St),
              q ∈ (quantStep QuantOp.plus true 2 c6St).follow p.pos) ∧
          (quantStep QuantOp.plus true 2 c6St).firstpos =
            posUnion (quantFirstpos QuantOp.plus true 2 c6St)
              (lazyAll (quantLazypos true 2 c6St)
                (quantFirstpos QuantOp.plus true 2 c6St)))) :=
  ⟨Or.inr rfl, c6_follow_closure_cases QuantOp.plus true 2 c6St (Or.inr rfl)⟩

/-! ### C10: `Pattern::flip` -/

theorem memB_nil (b : Nat) : ¬ memB b [] := by
  rintro ⟨s, hs, _⟩
  cases hs

theorem memB_cons (b : Nat) (r : Nat × Nat) (cs : CharsR) :
    memB b (r :: cs) ↔ (r.1 ≤ b ∧ b < r.2) ∨ memB b cs := by
  constructor
  · rintro ⟨s, hs, h1, h2⟩
    rcases List.mem_cons.mp hs with rfl | hs'
    · exact Or.inl ⟨h1, h2⟩
    · exact Or.inr ⟨s, hs', h1, h2⟩
  · rintro (⟨h1, h2⟩ | ⟨s, hs, h1, h2⟩)
    · exact ⟨r, by simp, h1, h2⟩
    · exact ⟨s, by simp [hs], h1, h2⟩

theorem flipGo_flipGo :
    ∀ (rest : CharsR) (l h : Nat), l < h → h ≤ 0x100 →
      List.Pairwise (fun a b => a.2 < b.1) rest →
      (∀ r ∈ rest, r.1 < r.2) →
      (∀ r ∈ rest, r.2 ≤ 0x100) →
      (∀ r ∈ rest, h < r.1) →
      flipGo l (flipGo h rest) = (l, h) :: rest := by
  intro rest
  induction rest with
  | nil =>
    intro l h hlh hh _ _ _ _
    by_cases hc : h ≤ 0xff
    · have h1 : flipGo h ([] : CharsR) = [(h, 0x100)] := by
        simp [flipGo, hc]
      rw [h1]
      simp [flipGo, hlh]
    · have hh' : h = 0x100 := by omega
      have h1 : flipGo h ([] : CharsR) = [] := by
        simp [flipGo, hc]
      rw [h1]
      have hl : l ≤ 0xff := by omega
      simp [flipGo, hl, hh']
  | cons r rest' ih =>
    rcases r with ⟨l2, h2⟩
    intro l h hlh hh hp hwf hbd hgt
    have hhl2 : h < l2 := hgt (l2, h2) (by simp)
    have hstep : flipGo h ((l2, h2) :: rest') = (h, l2) :: flipGo h2 rest' := by
      simp [flipGo, hhl2]
    rw [hstep]
    have hstep2 : flipGo l ((h, l2) :: flipGo h2 rest') =
        (l, h) :: flipGo l2 (flipGo h2 rest') := by
      simp [flipGo, hlh]
    rw [hstep2,
      ih l2 h2 (hwf (l2, h2) (by simp)) (hbd (l2, h2) (by simp))
        (List.pairwise_cons.mp hp).2
        (fun s hs => hwf s (by simp [hs]))
        (fun s hs => hbd s (by simp [hs]))
        (fun s hs => (List.pairwise_cons.mp hp).1 s hs)]

theorem memB_flipGo :
    ∀ (cs : CharsR) (c : Nat),
      List.Pairwise (fun a b => a.2 < b.1) cs →
      (∀ r ∈ cs, r.1 < r.2) →
      (∀ r ∈ cs, r.2 ≤ 0x100) →
      (∀ r ∈ cs, c ≤ r.1) →
      ∀ b, memB b (flipGo c cs) ↔ (c ≤ b ∧ b < 0x100 ∧ ¬ memB b cs) := by
  intro cs
  induction cs with
  | nil =>
    intro c _ _ _ _ b
    by_cases hc : c ≤ 0xff
    · have h1 : flipGo c ([] : CharsR) = [(c, 0x100)] := by
        simp [flipGo, hc]
      rw [h1, memB_cons]
      constructor
      · rintro (⟨ha, hb⟩ | hm)
        · exact ⟨ha, hb, memB_nil b⟩
        · exact absurd hm (memB_nil b)
      · rintro ⟨ha, hb, _⟩
        exact Or.inl ⟨ha, hb⟩
    · have h1 : flipGo c ([] : CharsR) = [] := by
        simp [flipGo, hc]
      rw [h1]
      constructor
      · intro hm
        exact absurd hm (memB_nil b)
      · rintro ⟨ha, hb, _⟩
        omega
  | cons r rest ih =>
    rcases r with ⟨lo, hi⟩
    intro c hp hwf hbd hc b
    have hlh : lo < hi := hwf (lo, hi) (by simp)
    have hhibd : hi ≤ 0x100 := hbd (lo, hi) (by simp)
    have hgt : ∀ s ∈ rest, hi < s.1 := (List.pairwise_cons.mp hp).1
    have hih := ih hi (List.pairwise_cons.mp hp).2
      (fun s hs => hwf s (by simp [hs]))
      (fun s hs => hbd s (by simp [hs]))
      (fun s hs => le_of_lt (hgt s hs)) b
    have hnr : b < hi → ¬ memB b rest := by
      rintro hbh ⟨s, hs, h1, h2⟩
      have := hgt s hs
      omega
    by_cases hclo : c < lo
    · have h1 : flipGo c ((lo, hi) :: rest) = (c, lo) :: flipGo hi rest := by
        simp [flipGo, hclo]
      rw [h1, memB_cons, hih, memB_cons]
      constructor
      · rintro (⟨ha, hb⟩ | ⟨ha, hb, hcc⟩)
        · refine ⟨ha, by omega, ?_⟩
          rintro (⟨h4, h5⟩ | h4)
          · omega
          · exact hnr (by omega) h4
        · refine ⟨by omega, hb, ?_⟩
          rintro (⟨h4, h5⟩ | h4)
          · omega
          · exact hcc h4
      · rintro ⟨ha, hb, hcc⟩
        by_cases hbl : b < lo
        · exact Or.inl ⟨ha, hbl⟩
        · have hbhi : hi ≤ b := by
            by_contra hh
            exact hcc (Or.inl ⟨by omega, by omega⟩)
          exact Or.inr ⟨hbhi, hb, fun hm => hcc (Or.inr hm)⟩
    · have hceq : c = lo := by
        have := hc (lo, hi) (by simp)
        simp at this
        omega
      have h1 : flipGo c ((lo, hi) :: rest) = flipGo hi rest := by
        simp [flipGo, hclo]
      rw [h1, hih, memB_cons]
      constructor
      · rintro ⟨ha, hb, hcc⟩
        refine ⟨by omega, hb, ?_⟩
        rintro (⟨h4, h5⟩ | h4)
        · omega
        · exact hcc h4
      · rintro ⟨ha, hb, hcc⟩
        have hbhi : hi ≤ b := by
          by_contra hh
          exact hcc (Or.inl ⟨by omega, by omega⟩)
        exact ⟨hbhi, hb, fun hm => hcc (Or.inr hm)⟩

/-- **C10.** `Pattern::flip` computes the complement of a byte character set
with respect to the byte alphabet `0..0xFF`, and is an involution on
well-formed sets (merged, sorted, nonempty ranges within the byte alphabet):
flipping twice restores the set exactly (pattern.cpp lines 1655-1672). -/
theorem c10_flip_complement_involution (cs : CharsR)
    (hp : List.Pairwise (fun a b => a.2 < b.1) cs)
    (hwf : ∀ r ∈ cs, r.1 < r.2)
    (hbd : ∀ r ∈ cs, r.2 ≤ 0x100) :
    (∀ b, memB b (flipChars cs) ↔ (b ≤ 0xff ∧ ¬ memB b cs)) ∧
      flipChars (flipChars cs) = cs := by
  constructor
  · intro b
    have hmf := memB_flipGo cs 0 hp hwf hbd (fun r _ => Nat.zero_le _) b
    rw [flipChars, hmf]
    constructor
    · rintro ⟨_, h2, h3⟩
      exact ⟨by omega, h3⟩
    · rintro ⟨h1, h2⟩
      exact ⟨Nat.zero_le b, by omega, h2⟩
  · cases cs with
    | nil => rfl
    | cons r rest =>
      rcases r with ⟨lo, hi⟩
      have hlh : lo < hi := hwf (lo, hi) (by simp)
      have hhi : hi ≤ 0x100 := hbd (lo, hi) (by simp)
      have hgt : ∀ s ∈ rest, hi < s.1 := (List.pairwise_cons.mp hp).1
      have hp' := (List.pairwise_cons.mp hp).2
      have hwf' : ∀ s ∈ rest, s.1 < s.2 := fun s hs => hwf s (by simp [hs])
      have hbd' : ∀ s ∈ rest, s.2 ≤ 0x100 := fun s hs => hbd s (by simp [hs])
      by_cases h0 : 0 < lo
      · have h1 : flipChars ((lo, hi) :: rest) = (0, lo) :: flipGo hi rest := by
          simp [flipChars, flipGo, h0]
        rw [h1]
        show flipGo 0 ((0, lo) :: flipGo hi rest) = _
        have h2 : flipGo 0 ((0, lo) :: flipGo hi rest) =
            flipGo lo (flipGo hi rest) := by
          simp [flipGo]
        rw [h2, flipGo_flipGo rest lo hi hlh hhi hp' hwf' hbd' hgt]
      · have hlo0 : lo = 0 := by omega
        have h1 : flipChars ((lo, hi) :: rest) = flipGo hi rest := by
          simp [flipChars, flipGo, hlo0]
        rw [h1]
        show flipGo 0 (flipGo hi rest) = _
        rw [flipGo_flipGo rest 0 hi (by omega) hhi hp' hwf' hbd' hgt, hlo0]

/-! ### C7: idempotence of `compact_dfa`

The builder hands `compact_dfa` states whose edge maps are sorted by key
with pairwise-disjoint well-formed intervals (the spec's §3 invariant,
maintained by `Pattern::transition`).  On such edge maps a second run of
the merge step is shown to change nothing. -/

theorem compactEdges_nil : compactEdges [] = [] := by
  simp [compactEdges]

theorem compactEdges_cons_big (e : Edge) (es : List Edge) (h : 0xff ≤ e.hi) :
    compactEdges (e :: es) = e :: es := by
  rw [compactEdges]
  simp [h]

theorem compactEdges_cons_small (e : Edge) (es : List Edge) (h : ¬ 0xff ≤ e.hi) :
    compactEdges (e :: es) =
      ⟨e.lo, (compactInner e.tgt e.hi e.hi es).1, e.tgt⟩ ::
        compactEdges (compactInner e.tgt e.hi e.hi es).2 := by
  rw [compactEdges]
  simp [h]

/-- The inner loop, described by the chain prefix: the stored bound becomes
the `hi` of the last chain edge sharing the target, and the survivors are
the non-target chain edges followed by the untouched suffix. -/
theorem compactInner_eq :
    ∀ (es : List Edge) (t : Option Nat) (c i : Nat),
      compactInner t c i es =
        (lastHiT t i (runPre c es), dropTgt t (runPre c es) ++ runSuf c es) := by
  intro es
  induction es with
  | nil => intro t c i; simp [compactInner, runPre, runSuf, lastHiT, dropTgt]
  | cons e es' ih =>
    intro t c i
    by_cases h1 : e.lo ≤ c + 1
    · have hPre : runPre c (e :: es') = e :: runPre e.hi es' := by
        simp [runPre, h1]
      have hSuf : runSuf c (e :: es') = runSuf e.hi es' := by
        simp [runSuf, h1]
      by_cases h2 : e.tgt = t
      · have hInner : compactInner t c i (e :: es') =
            compactInner t e.hi e.hi es' := by
          simp [compactInner, h1, h2]
        rw [hInner, ih, hPre, hSuf]
        have hfold : lastHiT t i (e :: runPre e.hi es') =
            lastHiT t e.hi (runPre e.hi es') := by
          simp [lastHiT, h2]
        have hdrop : dropTgt t (e :: runPre e.hi es') =
            dropTgt t (runPre e.hi es') := by
          simp [dropTgt, List.filter_cons, h2]
        rw [hfold, hdrop]
      · have hInner : compactInner t c i (e :: es') =
            ((compactInner t e.hi i es').1, e :: (compactInner t e.hi i es').2) := by
          simp [compactInner, h1, h2]
        rw [hInner, ih, hPre, hSuf]
        have hfold : lastHiT t i (e :: runPre e.hi es') =
            lastHiT t i (runPre e.hi es') := by
          simp [lastHiT, h2]
        have hdrop : dropTgt t (e :: runPre e.hi es') =
            e :: dropTgt t (runPre e.hi es') := by
          simp [dropTgt, List.filter_cons, h2]
        rw [hfold, hdrop]
        rfl
    · have hPre : runPre c (e :: es') = [] := by
        simp [runPre, h1]
      have hSuf : runSuf c (e :: es') = e :: es' := by
        simp [runSuf, h1]
      have hInner : compactInner t c i (e :: es') = (i, e :: es') := by
        simp [compactInner, h1]
      rw [hInner, hPre, hSuf]
      simp [lastHiT, dropTgt]

theorem runPre_append_runSuf :
    ∀ (es : List Edge) (c : Nat), runPre c es ++ runSuf c es = es := by
  intro es
  induction es with
  | nil => intro c; rfl
  | cons e es' ih =>
    intro c
    by_cases h1 : e.lo ≤ c + 1
    · simp [runPre, runSuf, h1, ih]
    · simp [runPre, runSuf, h1]

theorem runPre_mem :
    ∀ (es : List Edge) (c : Nat), ∀ f ∈ runPre c es, f ∈ es := by
  intro es c f hf
  rw [← runPre_append_runSuf es c]
  exact List.mem_append_left _ hf

/-- Chain structure on disjoint sorted edges strictly past `c`: the chain
bound `runEnd` dominates the chain edges' bounds, and the suffix starts
more than one past it. -/
theorem run_facts :
    ∀ (es : List Edge) (c : Nat),
      List.Pairwise (fun a b => a.hi < b.lo) es →
      (∀ e ∈ es, e.lo ≤ e.hi) →
      (∀ e ∈ es, c < e.lo) →
      c ≤ runEnd c (runPre c es) ∧
        (∀ f ∈ runPre c es, f.hi ≤ runEnd c (runPre c es)) ∧
        (∀ z ∈ runSuf c es, runEnd c (runPre c es) + 1 < z.lo) := by
  intro es
  induction es with
  | nil =>
    intro c _ _ _
    refine ⟨le_refl c, ?_, ?_⟩
    · intro f hf; simp [runPre] at hf
    · intro z hz; simp [runSuf] at hz
  | cons e es' ih =>
    intro c hp hw hc
    have hpe := (List.pairwise_cons.mp hp).1
    have hp' := (List.pairwise_cons.mp hp).2
    have hwe : e.lo ≤ e.hi := hw e (by simp)
    have hce : c < e.lo := hc e (by simp)
    by_cases h1 : e.lo ≤ c + 1
    · have hPre : runPre c (e :: es') = e :: runPre e.hi es' := by
        simp [runPre, h1]
      have hSuf : runSuf c (e :: es') = runSuf e.hi es' := by
        simp [runSuf, h1]
      have hEnd : runEnd c (e :: runPre e.hi es') =
          runEnd e.hi (runPre e.hi es') := rfl
      rcases ih e.hi hp' (fun f hf => hw f (by simp [hf])) hpe with ⟨i1, i2, i3⟩
      rw [hPre, hSuf, hEnd]
      refine ⟨by omega, ?_, i3⟩
      intro f hf
      rcases List.mem_cons.mp hf with rfl | hf'
      · exact i1
      · exact i2 f hf'
    · have hPre : runPre c (e :: es') = [] := by
        simp [runPre, h1]
      have hSuf : runSuf c (e :: es') = e :: es' := by
        simp [runSuf, h1]
      rw [hPre, hSuf]
      refine ⟨le_refl c, ?_, ?_⟩
      · intro f hf
        cases hf
      intro z hz
      rcases List.mem_cons.mp hz with rfl | hz'
      · show runEnd c [] + 1 < z.lo
        simp [runEnd]
        omega
      · have := hpe z hz'
        show runEnd c [] + 1 < z.lo
        simp [runEnd]
        omega

theorem lastHiT_le :
    ∀ (l : List Edge) (t : Option Nat) (d B : Nat),
      d ≤ B → (∀ f ∈ l, f.hi ≤ B) → lastHiT t d l ≤ B := by
  intro l
  induction l with
  | nil => intro t d B hd _; exact hd
  | cons f l' ih =>
    intro t d B hd hB
    show lastHiT t (if f.tgt = t then f.hi else d) l' ≤ B
    apply ih
    · by_cases h : f.tgt = t
      · rw [if_pos h]; exact hB f (by simp)
      · rw [if_neg h]; exact hd
    · intro g hg; exact hB g (by simp [hg])

theorem compactInner_fst_le (es : List Edge) (t : Option Nat) (c i B : Nat)
    (hi : i ≤ B) (hB : ∀ f ∈ es, f.hi ≤ B) :
    (compactInner t c i es).1 ≤ B := by
  rw [compactInner_eq]
  exact lastHiT_le _ t i B hi (fun f hf => hB f (runPre_mem es c f hf))

theorem compactInner_sublist (es : List Edge) (t : Option Nat) (c i : Nat) :
    (compactInner t c i es).2.Sublist es := by
  rw [compactInner_eq]
  have h1 : (dropTgt t (runPre c es)).Sublist (runPre c es) :=
    List.filter_sublist _
  have h2 := List.Sublist.append h1 (List.Sublist.refl (runSuf c es))
  rw [runPre_append_runSuf es c] at h2
  exact h2

/-- The inner loop does not reach past a gap: edges beyond a bound `B`
dominating the chain are returned untouched. -/
theorem compactInner_split :
    ∀ (Y : List Edge) (t : Option Nat) (c i B : Nat) (Z : List Edge),
      (∀ y ∈ Y, y.hi ≤ B) → c ≤ B → (∀ z ∈ Z, B + 1 < z.lo) →
      compactInner t c i (Y ++ Z) =
        ((compactInner t c i Y).1, (compactInner t c i Y).2 ++ Z) := by
  intro Y
  induction Y with
  | nil =>
    intro t c i B Z _ hcB hZ
    cases Z with
    | nil => simp [compactInner]
    | cons z Z' =>
      have hz : ¬ z.lo ≤ c + 1 := by
        have := hZ z (by simp)
        omega
      simp [compactInner, hz]
  | cons y Y' ih =>
    intro t c i B Z hY hcB hZ
    have hyB : y.hi ≤ B := hY y (by simp)
    have hY' : ∀ f ∈ Y', f.hi ≤ B := fun f hf => hY f (by simp [hf])
    by_cases h1 : y.lo ≤ c + 1
    · by_cases h2 : y.tgt = t
      · have hL : compactInner t c i ((y :: Y') ++ Z) =
            compactInner t y.hi y.hi (Y' ++ Z) := by
          simp [compactInner, h1, h2]
        have hR : compactInner t c i (y :: Y') =
            compactInner t y.hi y.hi Y' := by
          simp [compactInner, h1, h2]
        rw [hL, hR]
        exact ih t y.hi y.hi B Z hY' hyB hZ
      · have hL : compactInner t c i ((y :: Y') ++ Z) =
            ((compactInner t y.hi i (Y' ++ Z)).1,
              y :: (compactInner t y.hi i (Y' ++ Z)).2) := by
          simp [compactInner, h1, h2]
        have hR : compactInner t c i (y :: Y') =
            ((compactInner t y.hi i Y').1, y :: (compactInner t y.hi i Y').2) := by
          simp [compactInner, h1, h2]
        rw [hL, hR, ih t y.hi i B Z hY' hyB hZ]
        rfl
    · have hL : compactInner t c i ((y :: Y') ++ Z) = (i, y :: Y' ++ Z) := by
        simp [compactInner, h1]
      have hR : compactInner t c i (y :: Y') = (i, y :: Y') := by
        simp [compactInner, h1]
      rw [hL, hR]

/-- The inner loop merges nothing when every reachable edge has another
target and the rest lies past a gap. -/
theorem compactInner_nomerge :
    ∀ (X1 : List Edge) (t : Option Nat) (c i B : Nat) (X2 : List Edge),
      (∀ f ∈ X1, f.hi ≤ B ∧ ¬ (f.tgt = t)) → c ≤ B →
      (∀ g ∈ X2, B + 1 < g.lo) →
      compactInner t c i (X1 ++ X2) = (i, X1 ++ X2) := by
  intro X1
  induction X1 with
  | nil =>
    intro t c i B X2 _ hcB hX2
    cases X2 with
    | nil => simp [compactInner]
    | cons g X2' =>
      have hg : ¬ g.lo ≤ c + 1 := by
        have := hX2 g (by simp)
        omega
      simp [compactInner, hg]
  | cons f X1' ih =>
    intro t c i B X2 hX1 hcB hX2
    have hf := hX1 f (by simp)
    have hX1' : ∀ g ∈ X1', g.hi ≤ B ∧ ¬ (g.tgt = t) :=
      fun g hg => hX1 g (by simp [hg])
    by_cases h1 : f.lo ≤ c + 1
    · have hL : compactInner t c i ((f :: X1') ++ X2) =
          ((compactInner t f.hi i (X1' ++ X2)).1,
            f :: (compactInner t f.hi i (X1' ++ X2)).2) := by
        simp [compactInner, h1, hf.2]
      rw [hL, ih t f.hi i B X2 hX1' hf.1 hX2]
      rfl
    · have hL : compactInner t c i ((f :: X1') ++ X2) = (i, f :: X1' ++ X2) := by
        simp [compactInner, h1]
      rw [hL]

/-- Keys of the output are keys of the input. -/
theorem compactEdges_lo_sub :
    ∀ (n : Nat) (es : List Edge), es.length ≤ n →
      ∀ g ∈ compactEdges es, ∃ e ∈ es, g.lo = e.lo := by
  intro n
  induction n with
  | zero =>
    intro es hlen g hg
    have hnil : es = [] := List.eq_nil_of_length_eq_zero (Nat.le_zero.mp hlen)
    subst hnil
    rw [compactEdges_nil] at hg
    cases hg
  | succ n ih =>
    intro es hlen g hg
    cases es with
    | nil =>
      rw [compactEdges_nil] at hg
      cases hg
    | cons e es' =>
      by_cases hbig : 0xff ≤ e.hi
      · rw [compactEdges_cons_big e es' hbig] at hg
        exact ⟨g, hg, rfl⟩
      · rw [compactEdges_cons_small e es' hbig] at hg
        rcases List.mem_cons.mp hg with rfl | hg'
        · exact ⟨e, by simp, rfl⟩
        · have hlen' : (compactInner e.tgt e.hi e.hi es').2.length ≤ n := by
            have := (compactInner_sublist es' e.tgt e.hi e.hi).length_le
            simp at hlen
            omega
          rcases ih _ hlen' g hg' with ⟨f, hf, heq⟩
          have hfes : f ∈ es' :=
            (compactInner_sublist es' e.tgt e.hi e.hi).subset hf
          exact ⟨f, by simp [hfes], heq⟩

/-- The outer walk over a bounded block followed by a gapped tail splits:
the output decomposes into a block of edges bounded by `B` carrying the
block's targets, followed by edges keyed in the tail. -/
theorem compactEdges_split :
    ∀ (n : Nat) (Y Z : List Edge) (B : Nat), Y.length ≤ n →
      (∀ y ∈ Y, y.hi ≤ B) → (∀ z ∈ Z, B + 1 < z.lo) →
      ∃ X1 X2, compactEdges (Y ++ Z) = X1 ++ X2 ∧
        (∀ f ∈ X1, f.hi ≤ B ∧ ∃ y ∈ Y, f.tgt = y.tgt) ∧
        (∀ g ∈ X2, ∃ z ∈ Z, g.lo = z.lo) := by
  intro n
  induction n with
  | zero =>
    intro Y Z B hlen _ _
    have hnil : Y = [] := List.eq_nil_of_length_eq_zero (Nat.le_zero.mp hlen)
    subst hnil
    refine ⟨[], compactEdges Z, by simp, by simp, ?_⟩
    exact fun g hg => compactEdges_lo_sub Z.length Z (le_refl _) g hg
  | succ n ih =>
    intro Y Z B hlen hY hZ
    cases Y with
    | nil =>
      refine ⟨[], compactEdges Z, by simp, by simp, ?_⟩
      exact fun g hg => compactEdges_lo_sub Z.length Z (le_refl _) g hg
    | cons y Y' =>
      have hyB : y.hi ≤ B := hY y (by simp)
      have hY' : ∀ f ∈ Y', f.hi ≤ B := fun f hf => hY f (by simp [hf])
      by_cases hbig : 0xff ≤ y.hi
      · refine ⟨y :: Y', Z, ?_, ?_, ?_⟩
        · show compactEdges (y :: (Y' ++ Z)) = (y :: Y') ++ Z
          rw [compactEdges_cons_big y (Y' ++ Z) hbig]
          rfl
        · intro f hf
          exact ⟨hY f hf, f, hf, rfl⟩
        · exact fun g hg => ⟨g, hg, rfl⟩
      · have hsplit := compactInner_split Y' y.tgt y.hi y.hi B Z hY' hyB hZ
        have hstep : compactEdges ((y :: Y') ++ Z) =
            ⟨y.lo, (compactInner y.tgt y.hi y.hi Y').1, y.tgt⟩ ::
              compactEdges ((compactInner y.tgt y.hi y.hi Y').2 ++ Z) := by
          show compactEdges (y :: (Y' ++ Z)) = _
          rw [compactEdges_cons_small y (Y' ++ Z) hbig, hsplit]
        have hsubl := compactInner_sublist Y' y.tgt y.hi y.hi
        have hlen' : (compactInner y.tgt y.hi y.hi Y').2.length ≤ n := by
          have := hsubl.length_le
          simp at hlen
          omega
        rcases ih (compactInner y.tgt y.hi y.hi Y').2 Z B hlen'
            (fun f hf => hY' f (hsubl.subset hf)) hZ with
          ⟨X1, X2, hXeq, hX1, hX2⟩
        refine ⟨⟨y.lo, (compactInner y.tgt y.hi y.hi Y').1, y.tgt⟩ :: X1, X2,
          ?_, ?_, hX2⟩
        · rw [hstep, hXeq]
          rfl
        · intro f hf
          rcases List.mem_cons.mp hf with rfl | hf'
          · exact ⟨compactInner_fst_le Y' y.tgt y.hi y.hi B hyB hY',
              y, by simp, rfl⟩
          · rcases hX1 f hf' with ⟨hfB, g, hg, htg⟩
            exact ⟨hfB, g, by simp [hsubl.subset hg], htg⟩

/-- On a state with pairwise-disjoint sorted well-formed edges, the merge
step of `compact_dfa` is idempotent. -/
theorem compactEdges_idem :
    ∀ (n : Nat) (es : List Edge), es.length ≤ n →
      List.Pairwise (fun a b => a.hi < b.lo) es →
      (∀ e ∈ es, e.lo ≤ e.hi) →
      compactEdges (compactEdges es) = compactEdges es := by
  intro n
  induction n with
  | zero =>
    intro es hlen _ _
    have hnil : es = [] := List.eq_nil_of_length_eq_zero (Nat.le_zero.mp hlen)
    subst hnil
    rw [compactEdges_nil, compactEdges_nil]
  | succ n ih =>
    intro es hlen hp hw
    cases es with
    | nil => rw [compactEdges_nil, compactEdges_nil]
    | cons e es' =>
      have hpe := (List.pairwise_cons.mp hp).1
      have hp' := (List.pairwise_cons.mp hp).2
      have hwe : e.lo ≤ e.hi := hw e (by simp)
      have hw' : ∀ f ∈ es', f.lo ≤ f.hi := fun f hf => hw f (by simp [hf])
      by_cases hbig : 0xff ≤ e.hi
      · rw [compactEdges_cons_big e es' hbig, compactEdges_cons_big e es' hbig]
      · rw [compactEdges_cons_small e es' hbig]
        have hin := compactInner_eq es' e.tgt e.hi e.hi
        rcases run_facts es' e.hi hp' hw'
            (fun f hf => by have := hpe f hf; omega) with ⟨hE0, hEP, hEZ⟩
        have hH : (compactInner e.tgt e.hi e.hi es').1 ≤
            runEnd e.hi (runPre e.hi es') := by
          rw [hin]
          exact lastHiT_le _ e.tgt e.hi _ hE0 hEP
        have hN : ∀ y ∈ dropTgt e.tgt (runPre e.hi es'),
            y.hi ≤ runEnd e.hi (runPre e.hi es') ∧ ¬ (y.tgt = e.tgt) := by
          intro y hy
          have hmem : y ∈ runPre e.hi es' ∧ ¬ (y.tgt = e.tgt) := by
            have := List.mem_filter.mp hy
            refine ⟨this.1, by simpa using this.2⟩
          exact ⟨hEP y hmem.1, hmem.2⟩
        rcases compactEdges_split (dropTgt e.tgt (runPre e.hi es')).length
            (dropTgt e.tgt (runPre e.hi es')) (runSuf e.hi es')
            (runEnd e.hi (runPre e.hi es')) (le_refl _)
            (fun y hy => (hN y hy).1) hEZ with ⟨X1, X2, hXeq, hX1, hX2⟩
        have hr2 : (compactInner e.tgt e.hi e.hi es').2 =
            dropTgt e.tgt (runPre e.hi es') ++ runSuf e.hi es' := by
          rw [hin]
        by_cases hH255 : 0xff ≤ (compactInner e.tgt e.hi e.hi es').1
        · rw [compactEdges_cons_big _ _ hH255]
        · rw [compactEdges_cons_small _ _ hH255]
          have hnm : compactInner e.tgt (compactInner e.tgt e.hi e.hi es').1
              (compactInner e.tgt e.hi e.hi es').1
              (compactEdges (compactInner e.tgt e.hi e.hi es').2) =
              ((compactInner e.tgt e.hi e.hi es').1,
                compactEdges (compactInner e.tgt e.hi e.hi es').2) := by
            rw [hr2, hXeq]
            apply compactInner_nomerge X1 e.tgt _ _
                (runEnd e.hi (runPre e.hi es')) X2
            · intro f hf
              rcases hX1 f hf with ⟨hfB, y, hy, htg⟩
              exact ⟨hfB, by rw [htg]; exact (hN y hy).2⟩
            · exact hH
            · intro g hg
              rcases hX2 g hg with ⟨z, hz, hlo⟩
              rw [hlo]
              exact hEZ z hz
          rw [hnm]
          have hidem : compactEdges
              (compactEdges (compactInner e.tgt e.hi e.hi es').2) =
              compactEdges (compactInner e.tgt e.hi e.hi es').2 := by
            have hsubl := compactInner_sublist es' e.tgt e.hi e.hi
            apply ih
            · have := hsubl.length_le
              simp at hlen
              omega
            · exact hp'.sublist hsubl
            · exact fun f hf => hw' f (hsubl.subset hf)
          rw [hidem]

/-- **C7.** `compact_dfa` is idempotent on the DFA handed to it by the
builder (every state's edge map sorted by key with pairwise-disjoint,
well-formed intervals): running the adjacent-edge merge step a second time
on its output produces exactly the same edge maps in every state as running
it once (pattern.cpp lines 1685-1711). -/
theorem c7_compact_idempotent (states : List (List Edge))
    (h : ∀ s ∈ states,
      List.Pairwise (fun a b => a.hi < b.lo) s ∧ ∀ e ∈ s, e.lo ≤ e.hi) :
    compactDfa (compactDfa states) = compactDfa states := by
  simp only [compactDfa, List.map_map]
  apply List.map_congr_left
  intro s hs
  show compactEdges (compactEdges s) = compactEdges s
  exact compactEdges_idem s.length s (le_refl _) (h s hs).1 (h s hs).2

/-- Witness for `c7_compact_idempotent`: a two-state DFA whose first state
has three alternating edges and the second a full-range edge. -/
theorem c7_compact_idempotent_witness :
    (∀ s ∈ [[Edge.mk 0 0 (some 0), Edge.mk 1 1 (some 1), Edge.mk 2 2 (some 0)],
        [Edge.mk 0 0xff (some 0)]],
      List.Pairwise (fun a b : Edge => a.hi < b.lo) s ∧ ∀ e ∈ s, e.lo ≤ e.hi) ∧
      compactDfa (compactDfa
          [[Edge.mk 0 0 (some 0), Edge.mk 1 1 (some 1), Edge.mk 2 2 (some 0)],
            [Edge.mk 0 0xff (some 0)]]) =
        compactDfa
          [[Edge.mk 0 0 (some 0), Edge.mk 1 1 (some 1), Edge.mk 2 2 (some 0)],
            [Edge.mk 0 0xff (some 0)]] :=
  ⟨by decide,
    c7_compact_idempotent
      [[Edge.mk 0 0 (some 0), Edge.mk 1 1 (some 1), Edge.mk 2 2 (some 0)],
        [Edge.mk 0 0xff (some 0)]] (by decide)⟩

/-! ### C8: determinism — allocator independence of the builder/encoder -/

theorem storeGet_rename (φ : Nat → Nat) (hφ : Function.Injective φ)
    (σ : Store) (a : Nat) :
    storeGet (renameStore φ σ) (φ a) = (storeGet σ a).map (renameNode φ) := by
  induction σ with
  | nil => rfl
  | cons p σ ih =>
    show (if φ p.1 = φ a then some (renameNode φ p.2)
      else storeGet (renameStore φ σ) (φ a)) = _
    by_cases h : p.1 = a
    · rw [if_pos (by rw [h]), show storeGet (p :: σ) a = some p.2 from by
        simp [storeGet, h]]
      rfl
    · rw [if_neg (fun hh => h (hφ hh)), ih,
        show storeGet (p :: σ) a = storeGet σ a from by simp [storeGet, h]]

theorem storeSet_rename (φ : Nat → Nat) (hφ : Function.Injective φ)
    (σ : Store) (a : Nat) (nd : StNode) :
    storeSet (renameStore φ σ) (φ a) (renameNode φ nd) =
      renameStore φ (storeSet σ a nd) := by
  unfold storeSet renameStore
  rw [List.map_map, List.map_map]
  apply List.map_congr_left
  intro p _
  by_cases h : p.1 = a
  · simp [h, hφ.eq_iff]
  · simp [h, hφ.eq_iff]

theorem renameStore_length (φ : Nat → Nat) (σ : Store) :
    (renameStore φ σ).length = σ.length := by
  simp [renameStore]

theorem treeFind_succ_none (σ : Store) (fuel a : Nat) (key : PosKey)
    (h : storeGet σ a = none) : treeFind σ (fuel + 1) a key = none := by
  simp only [treeFind]
  rw [h]

theorem treeFind_succ_left_none (σ : Store) (fuel a : Nat) (key : PosKey)
    (nd : StNode) (h : storeGet σ a = some nd) (h1 : keyLt key nd.key)
    (hl : nd.left = none) :
    treeFind σ (fuel + 1) a key = some (FindRes.insertAt a true) := by
  simp only [treeFind]
  rw [h]
  simp only [h1, if_true, hl]

theorem treeFind_succ_left_some (σ : Store) (fuel a : Nat) (key : PosKey)
    (nd : StNode) (l : Nat) (h : storeGet σ a = some nd)
    (h1 : keyLt key nd.key) (hl : nd.left = some l) :
    treeFind σ (fuel + 1) a key = treeFind σ fuel l key := by
  simp only [treeFind]
  rw [h]
  simp only [h1, if_true, hl]

theorem treeFind_succ_right_none (σ : Store) (fuel a : Nat) (key : PosKey)
    (nd : StNode) (h : storeGet σ a = some nd) (h1 : ¬ keyLt key nd.key)
    (h2 : keyLt nd.key key) (hr : nd.right = none) :
    treeFind σ (fuel + 1) a key = some (FindRes.insertAt a false) := by
  simp only [treeFind]
  rw [h]
  simp only [h1, h2, if_true, if_false, Bool.false_eq_true, hr]

theorem treeFind_succ_right_some (σ : Store) (fuel a : Nat) (key : PosKey)
    (nd : StNode) (r : Nat) (h : storeGet σ a = some nd)
    (h1 : ¬ keyLt key nd.key) (h2 : keyLt nd.key key)
    (hr : nd.right = some r) :
    treeFind σ (fuel + 1) a key = treeFind σ fuel r key := by
  simp only [treeFind]
  rw [h]
  simp only [h1, h2, if_true, if_false, Bool.false_eq_true, hr]

theorem treeFind_succ_found (σ : Store) (fuel a : Nat) (key : PosKey)
    (nd : StNode) (h : storeGet σ a = some nd) (h1 : ¬ keyLt key nd.key)
    (h2 : ¬ keyLt nd.key key) :
    treeFind σ (fuel + 1) a key = some (FindRes.found a) := by
  simp only [treeFind]
  rw [h]
  simp only [h1, h2, if_false, Bool.false_eq_true]

theorem treeFind_rename (φ : Nat → Nat) (hφ : Function.Injective φ)
    (σ : Store) :
    ∀ (fuel : Nat) (a : Nat) (key : PosKey),
      treeFind (renameStore φ σ) fuel (φ a) key =
        (treeFind σ fuel a key).map (renameRes φ) := by
  intro fuel
  induction fuel with
  | zero => intro a key; rfl
  | succ fuel ih =>
    intro a key
    have hget := storeGet_rename φ hφ σ a
    cases hg : storeGet σ a with
    | none =>
      rw [hg] at hget
      rw [treeFind_succ_none _ fuel _ key hget,
        treeFind_succ_none _ fuel _ key hg]
      rfl
    | some nd =>
      rw [hg] at hget
      have hkey : (renameNode φ nd).key = nd.key := rfl
      by_cases h1 : keyLt key nd.key
      · cases hl : nd.left with
        | none =>
          have hl' : (renameNode φ nd).left = none := by simp [renameNode, hl]
          rw [treeFind_succ_left_none _ fuel _ key _ hget (hkey ▸ h1) hl',
            treeFind_succ_left_none _ fuel _ key _ hg h1 hl]
          rfl
        | some l =>
          have hl' : (renameNode φ nd).left = some (φ l) := by
            simp [renameNode, hl]
          rw [treeFind_succ_left_some _ fuel _ key _ _ hget (hkey ▸ h1) hl',
            treeFind_succ_left_some _ fuel _ key _ _ hg h1 hl]
          exact ih l key
      · by_cases h2 : keyLt nd.key key
        · cases hr : nd.right with
          | none =>
            have hr' : (renameNode φ nd).right = none := by
              simp [renameNode, hr]
            rw [treeFind_succ_right_none _ fuel _ key _ hget (hkey ▸ h1)
                (hkey ▸ h2) hr',
              treeFind_succ_right_none _ fuel _ key _ hg h1 h2 hr]
            rfl
          | some r =>
            have hr' : (renameNode φ nd).right = some (φ r) := by
              simp [renameNode, hr]
            rw [treeFind_succ_right_some _ fuel _ key _ _ hget (hkey ▸ h1)
                (hkey ▸ h2) hr',
              treeFind_succ_right_some _ fuel _ key _ _ hg h1 h2 hr]
            exact ih r key
        · rw [treeFind_succ_found _ fuel _ key _ hget (hkey ▸ h1) (hkey ▸ h2),
            treeFind_succ_found _ fuel _ key _ hg h1 h2]
          rfl

theorem setBranch_rename (φ : Nat → Nat) (hφ : Function.Injective φ)
    (σ : Store) (parent : Nat) (isLeft : Bool) (child : Nat) :
    setBranch (renameStore φ σ) (φ parent) isLeft (φ child) =
      renameStore φ (setBranch σ parent isLeft child) := by
  unfold setBranch
  rw [storeGet_rename φ hφ σ parent]
  cases hg : storeGet σ parent with
  | none => rfl
  | some nd =>
    cases isLeft with
    | true =>
      show storeSet (renameStore φ σ) (φ parent)
          { renameNode φ nd with left := some (φ child) } = _
      have : ({ renameNode φ nd with left := some (φ child) } : StNode) =
          renameNode φ { nd with left := some child } := by
        simp [renameNode]
      rw [this, storeSet_rename φ hφ]
      simp
    | false =>
      show storeSet (renameStore φ σ) (φ parent)
          { renameNode φ nd with right := some (φ child) } = _
      have : ({ renameNode φ nd with right := some (φ child) } : StNode) =
          renameNode φ { nd with right := some child } := by
        simp [renameNode]
      rw [this, storeSet_rename φ hφ]
      simp

theorem renameStore_append (φ : Nat → Nat) (σ τ : Store) :
    renameStore φ (σ ++ τ) = renameStore φ σ ++ renameStore φ τ := by
  simp [renameStore]

theorem findOrInsert_rename (alloc : Nat → Nat)
    (hφ : Function.Injective alloc) (σ : Store) (count root : Nat)
    (key : PosKey) :
    findOrInsert alloc (renameStore alloc σ) count (alloc root) key =
      (renameStore alloc (findOrInsert (fun n => n) σ count root key).1,
        (findOrInsert (fun n => n) σ count root key).2.1,
        alloc (findOrInsert (fun n => n) σ count root key).2.2) := by
  unfold findOrInsert
  rw [renameStore_length, treeFind_rename alloc hφ σ σ.length root key]
  cases hf : treeFind σ σ.length root key with
  | none => rfl
  | some res =>
    cases res with
    | found a => rfl
    | insertAt parent isLeft =>
      dsimp only [renameRes]
      rw [renameStore_append, ← setBranch_rename alloc hφ σ parent isLeft count]
      rfl

theorem edgesInsert_rename (φ : Nat → Nat) (e : Edge) :
    ∀ es : List Edge,
      edgesInsert (renameEdge φ e) (es.map (renameEdge φ)) =
        (edgesInsert e es).map (renameEdge φ) := by
  intro es
  induction es with
  | nil => rfl
  | cons f fs ih =>
    show (if (renameEdge φ e).lo < (renameEdge φ f).lo then _
      else if (renameEdge φ e).lo = (renameEdge φ f).lo then _ else _) = _
    have hlo1 : (renameEdge φ e).lo = e.lo := rfl
    have hlo2 : (renameEdge φ f).lo = f.lo := rfl
    rw [hlo1, hlo2]
    by_cases h1 : e.lo < f.lo
    · rw [if_pos h1]
      show _ = ((if e.lo < f.lo then e :: f :: fs
        else if e.lo = f.lo then e :: fs else f :: edgesInsert e fs)).map _
      rw [if_pos h1]
      rfl
    · rw [if_neg h1]
      by_cases h2 : e.lo = f.lo
      · rw [if_pos h2]
        show _ = ((if e.lo < f.lo then e :: f :: fs
          else if e.lo = f.lo then e :: fs else f :: edgesInsert e fs)).map _
        rw [if_neg h1, if_pos h2]
        rfl
      · rw [if_neg h2]
        show (renameEdge φ f) :: edgesInsert (renameEdge φ e) (fs.map _) =
          ((if e.lo < f.lo then e :: f :: fs
            else if e.lo = f.lo then e :: fs else f :: edgesInsert e fs)).map _
        rw [if_neg h1, if_neg h2, ih]
        rfl

theorem commitEdges_rename (φ : Nat → Nat) (ranges : List (Nat × Nat))
    (tgt : Nat) :
    ∀ es : List Edge,
      commitEdges (es.map (renameEdge φ)) ranges (φ tgt) =
        (commitEdges es ranges tgt).map (renameEdge φ) := by
  induction ranges with
  | nil => intro es; rfl
  | cons r rs ih =>
    intro es
    show commitEdges (edgesInsert ⟨r.1, r.2 - 1, some (φ tgt)⟩ (es.map _)) rs (φ tgt) = _
    have : (⟨r.1, r.2 - 1, some (φ tgt)⟩ : Edge) =
        renameEdge φ ⟨r.1, r.2 - 1, some tgt⟩ := rfl
    rw [this, edgesInsert_rename φ _ es, ih]
    rfl

theorem buildMove_rename (alloc : Nat → Nat)
    (hφ : Function.Injective alloc) (root cur : Nat) (st : BuildSt)
    (mv : List (Nat × Nat) × PosKey) :
    buildMove alloc (alloc root) (alloc cur) (renameSt alloc st) mv =
      renameSt alloc (buildMove (fun n => n) root cur st mv) := by
  unfold buildMove
  by_cases hmv : mv.2 = []
  · rw [if_pos hmv, if_pos hmv]
  · rw [if_neg hmv, if_neg hmv]
    have hst : (renameSt alloc st).σ = renameStore alloc st.σ := rfl
    have hct : (renameSt alloc st).count = st.count := rfl
    rw [hst, hct, findOrInsert_rename alloc hφ st.σ st.count root mv.2]
    dsimp only
    rw [storeGet_rename alloc hφ
      (findOrInsert (fun n => n) st.σ st.count root mv.2).1 cur]
    cases hg : storeGet (findOrInsert (fun n => n) st.σ st.count root mv.2).1 cur with
    | none => rfl
    | some nd =>
      dsimp only [Option.map]
      have hnode : ({ renameNode alloc nd with
          edges := commitEdges ((renameNode alloc nd).edges) mv.1
            (alloc (findOrInsert (fun n => n) st.σ st.count root mv.2).2.2) } : StNode) =
          renameNode alloc { nd with
            edges := commitEdges nd.edges mv.1
              (findOrInsert (fun n => n) st.σ st.count root mv.2).2.2 } := by
        have hedges : (renameNode alloc nd).edges =
            nd.edges.map (renameEdge alloc) := rfl
        rw [hedges, commitEdges_rename alloc mv.1 _ nd.edges]
        simp [renameNode]
      rw [hnode, storeSet_rename alloc hφ]
      rfl

theorem buildMoves_fold_rename (alloc : Nat → Nat)
    (hφ : Function.Injective alloc) (root cur : Nat) :
    ∀ (l : List (List (Nat × Nat) × PosKey)) (st : BuildSt),
      l.foldl (buildMove alloc (alloc root) (alloc cur)) (renameSt alloc st) =
        renameSt alloc (l.foldl (buildMove (fun n => n) root cur) st) := by
  intro l
  induction l with
  | nil => intro st; rfl
  | cons mv l ih =>
    intro st
    rw [List.foldl_cons, List.foldl_cons,
      buildMove_rename alloc hφ root cur st mv, ih]

theorem buildStep_rename (alloc : Nat → Nat)
    (hφ : Function.Injective alloc)
    (movesOf : PosKey → List (List (Nat × Nat) × PosKey)) (root : Nat)
    (st : BuildSt) (w : Nat) :
    buildStep alloc movesOf (alloc root) (renameSt alloc st) w =
      renameSt alloc (buildStep (fun n => n) movesOf root st w) := by
  unfold buildStep
  have hget : (renameSt alloc st).σ[w]? =
      (st.σ[w]?).map (fun p => (alloc p.1, renameNode alloc p.2)) := by
    show (renameStore alloc st.σ)[w]? = _
    exact List.getElem?_map _ _ w
  rw [hget]
  cases hg : st.σ[w]? with
  | none => rfl
  | some p =>
    show (movesOf (renameNode alloc p.2).key).foldl
        (buildMove alloc (alloc root) (alloc p.1)) (renameSt alloc st) = _
    have hkey : (renameNode alloc p.2).key = p.2.key := rfl
    rw [hkey]
    exact buildMoves_fold_rename alloc hφ root p.1 (movesOf p.2.key) st

theorem buildLoop_rename (alloc : Nat → Nat)
    (hφ : Function.Injective alloc)
    (movesOf : PosKey → List (List (Nat × Nat) × PosKey)) (root : Nat) :
    ∀ (fuel w : Nat) (st : BuildSt),
      buildLoop alloc movesOf (alloc root) fuel w (renameSt alloc st) =
        renameSt alloc (buildLoop (fun n => n) movesOf root fuel w st) := by
  intro fuel
  induction fuel with
  | zero => intro w st; rfl
  | succ fuel ih =>
    intro w st
    show (if w < (renameSt alloc st).σ.length then _ else _) = _
    have hlen : (renameSt alloc st).σ.length = st.σ.length :=
      renameStore_length alloc st.σ
    rw [hlen]
    by_cases hw : w < st.σ.length
    · rw [if_pos hw]
      show buildLoop alloc movesOf (alloc root) fuel (w + 1)
          (buildStep alloc movesOf (alloc root) (renameSt alloc st) w) = _
      rw [buildStep_rename alloc hφ movesOf root st w, ih]
      show _ = renameSt alloc (if w < st.σ.length then _ else _)
      rw [if_pos hw]
    · rw [if_neg hw]
      show _ = renameSt alloc (if w < st.σ.length then _ else _)
      rw [if_neg hw]

theorem build_rename (alloc : Nat → Nat) (hφ : Function.Injective alloc)
    (movesOf : PosKey → List (List (Nat × Nat) × PosKey))
    (startKey : PosKey) (fuel : Nat) :
    build alloc movesOf startKey fuel =
      renameSt alloc (build (fun n => n) movesOf startKey fuel) := by
  unfold build
  have hinit : (⟨[(alloc 0, ⟨startKey, none, none, []⟩)], 1⟩ : BuildSt) =
      renameSt alloc ⟨[(0, ⟨startKey, none, none, []⟩)], 1⟩ := rfl
  rw [hinit]
  exact buildLoop_rename alloc hφ movesOf 0 fuel 0 _

theorem compactInner_rename (φ : Nat → Nat) (hφ : Function.Injective φ) :
    ∀ (es : List Edge) (t : Option Nat) (c i : Nat),
      compactInner (t.map φ) c i (es.map (renameEdge φ)) =
        ((compactInner t c i es).1,
          (compactInner t c i es).2.map (renameEdge φ)) := by
  intro es
  induction es with
  | nil => intro t c i; rfl
  | cons e es' ih =>
    intro t c i
    have hlo : (renameEdge φ e).lo = e.lo := rfl
    have hhi : (renameEdge φ e).hi = e.hi := rfl
    have htgt : ((renameEdge φ e).tgt = t.map φ) ↔ (e.tgt = t) := by
      constructor
      · intro h
        exact Option.map_injective hφ h
      · intro h
        show e.tgt.map φ = t.map φ
        rw [h]
    by_cases h1 : e.lo ≤ c + 1
    · by_cases h2 : e.tgt = t
      · have hL : compactInner (t.map φ) c i ((e :: es').map (renameEdge φ)) =
            compactInner (t.map φ) e.hi e.hi (es'.map (renameEdge φ)) := by
          simp only [List.map_cons, compactInner, hlo, hhi, if_pos h1,
            if_pos (htgt.mpr h2)]
        have hR : compactInner t c i (e :: es') =
            compactInner t e.hi e.hi es' := by
          simp [compactInner, h1, h2]
        rw [hL, hR, ih]
      · have hL : compactInner (t.map φ) c i ((e :: es').map (renameEdge φ)) =
            ((compactInner (t.map φ) e.hi i (es'.map (renameEdge φ))).1,
              renameEdge φ e ::
                (compactInner (t.map φ) e.hi i (es'.map (renameEdge φ))).2) := by
          simp only [List.map_cons, compactInner, hlo, hhi, if_pos h1]
          rw [if_neg (fun hh => h2 (htgt.mp hh))]
        have hR : compactInner t c i (e :: es') =
            ((compactInner t e.hi i es').1,
              e :: (compactInner t e.hi i es').2) := by
          simp [compactInner, h1, h2]
        rw [hL, hR, ih]
        rfl
    · have hL : compactInner (t.map φ) c i ((e :: es').map (renameEdge φ)) =
          (i, (e :: es').map (renameEdge φ)) := by
        simp only [List.map_cons, compactInner, hlo, if_neg h1]
      have hR : compactInner t c i (e :: es') = (i, e :: es') := by
        simp [compactInner, h1]
      rw [hL, hR]

theorem compactEdges_rename (φ : Nat → Nat) (hφ : Function.Injective φ) :
    ∀ (n : Nat) (es : List Edge), es.length ≤ n →
      compactEdges (es.map (renameEdge φ)) =
        (compactEdges es).map (renameEdge φ) := by
  intro n
  induction n with
  | zero =>
    intro es hlen
    have hnil : es = [] := List.eq_nil_of_length_eq_zero (Nat.le_zero.mp hlen)
    subst hnil
    simp [compactEdges_nil]
  | succ n ih =>
    intro es hlen
    cases es with
    | nil => simp [compactEdges_nil]
    | cons e es' =>
      have hhi : (renameEdge φ e).hi = e.hi := rfl
      by_cases hbig : 0xff ≤ e.hi
      · rw [List.map_cons, compactEdges_cons_big _ _ (hhi ▸ hbig),
          compactEdges_cons_big _ _ hbig]
        rfl
      · rw [List.map_cons, compactEdges_cons_small _ _ (by rw [hhi]; exact hbig),
          compactEdges_cons_small _ _ hbig]
        have htgt : (renameEdge φ e).tgt = e.tgt.map φ := rfl
        have hrw := compactInner_rename φ hφ es' e.tgt e.hi e.hi
        rw [List.map_cons]
        have hlen' : (compactInner e.tgt e.hi e.hi es').2.length ≤ n := by
          have := (compactInner_sublist es' e.tgt e.hi e.hi).length_le
          simp at hlen
          omega
        have hinner : compactInner (renameEdge φ e).tgt (renameEdge φ e).hi
            (renameEdge φ e).hi (es'.map (renameEdge φ)) =
            ((compactInner e.tgt e.hi e.hi es').1,
              (compactInner e.tgt e.hi e.hi es').2.map (renameEdge φ)) := by
          rw [htgt, hhi]
          exact compactInner_rename φ hφ es' e.tgt e.hi e.hi
        rw [hinner]
        dsimp only
        rw [ih _ hlen']
        rfl

theorem scanFrom_rename (φ : Nat → Nat) :
    ∀ (es : List Edge) (c : Nat),
      scanFrom c (es.map (renameEdge φ)) = scanFrom c es := by
  intro es
  induction es with
  | nil => intro c; rfl
  | cons e es' ih =>
    intro c
    show scanFrom (if (renameEdge φ e).lo = c then (renameEdge φ e).hi + 1 else c)
        (es'.map (renameEdge φ)) = _
    have hlo : (renameEdge φ e).lo = e.lo := rfl
    have hhi : (renameEdge φ e).hi = e.hi := rfl
    rw [hlo, hhi, ih]
    rfl

theorem withDead_rename (φ : Nat → Nat) (es : List Edge) :
    withDead (es.map (renameEdge φ)) = (withDead es).map (renameEdge φ) := by
  unfold withDead
  rw [scanFrom_rename φ es 0]
  by_cases h : scanFrom 0 es ≤ 0xff
  · rw [if_pos h, if_pos h]
    exact edgesInsert_rename φ ⟨scanFrom 0 es, 0xff, none⟩ es
  · rw [if_neg h, if_neg h]

theorem stateCount_rename (φ : Nat → Nat) (oc : StOracles) (key : PosKey)
    (es : List Edge) :
    stateCount oc key (es.map (renameEdge φ)) = stateCount oc key es := by
  unfold stateCount
  rw [List.map_map]
  have : metaSpan ∘ renameEdge φ = metaSpan := rfl
  rw [this]

theorem indexList_rename (φ : Nat → Nat) (oc : StOracles) :
    ∀ (σ : Store) (n : Nat),
      indexList oc (renameStore φ σ) n =
        (indexList oc σ n).map (fun p => (φ p.1, p.2)) := by
  intro σ
  induction σ with
  | nil => intro n; rfl
  | cons p σ ih =>
    intro n
    show (φ p.1, n) :: indexList oc (renameStore φ σ)
        (n + stateCount oc (renameNode φ p.2).key (renameNode φ p.2).edges) = _
    have hkey : (renameNode φ p.2).key = p.2.key := rfl
    have hedges : (renameNode φ p.2).edges = p.2.edges.map (renameEdge φ) := rfl
    rw [hkey, hedges, stateCount_rename φ oc p.2.key p.2.edges, ih]
    rfl

theorem lookupIndex_rename (φ : Nat → Nat) (hφ : Function.Injective φ) :
    ∀ (il : List (Nat × Nat)) (a : Nat),
      lookupIndex (il.map (fun p => (φ p.1, p.2))) (φ a) = lookupIndex il a := by
  intro il
  induction il with
  | nil => intro a; rfl
  | cons p il ih =>
    intro a
    show (if φ p.1 = φ a then some p.2 else _) = (if p.1 = a then some p.2 else _)
    by_cases h : p.1 = a
    · rw [if_pos (by rw [h]), if_pos h]
    · rw [if_neg (fun hh => h (hφ hh)), if_neg h, ih]

theorem emitEdge_rename (φ : Nat → Nat) (hφ : Function.Injective φ)
    (il : List (Nat × Nat)) (e : Edge) :
    emitEdge (il.map (fun p => (φ p.1, p.2))) (renameEdge φ e) =
      emitEdge il e := by
  cases he : e.tgt with
  | none =>
    unfold emitEdge
    rw [show (renameEdge φ e).tgt = none from by simp [renameEdge, he], he]
    rfl
  | some a =>
    unfold emitEdge
    rw [show (renameEdge φ e).tgt = some (φ a) from by simp [renameEdge, he], he]
    dsimp only
    rw [lookupIndex_rename φ hφ il a]
    rfl

theorem emitState_rename (φ : Nat → Nat) (hφ : Function.Injective φ)
    (oc : StOracles) (il : List (Nat × Nat)) (key : PosKey) (es : List Edge) :
    emitState oc (il.map (fun p => (φ p.1, p.2))) key (es.map (renameEdge φ)) =
      emitState oc il key es := by
  unfold emitState
  rw [← List.map_reverse]
  rw [List.map_map]
  have : emitEdge (il.map (fun p => (φ p.1, p.2))) ∘ renameEdge φ =
      emitEdge il := by
    funext e
    exact emitEdge_rename φ hφ il e
  rw [this]

theorem deadStore_rename (φ : Nat → Nat) (hφ : Function.Injective φ)
    (σ : Store) :
    deadStore (renameStore φ σ) = renameStore φ (deadStore σ) := by
  unfold deadStore renameStore
  rw [List.map_map, List.map_map]
  apply List.map_congr_left
  intro p _
  show (φ p.1, { renameNode φ p.2 with
      edges := withDead (compactEdges (renameNode φ p.2).edges) }) = _
  have hedges : (renameNode φ p.2).edges = p.2.edges.map (renameEdge φ) := rfl
  rw [hedges, compactEdges_rename φ hφ p.2.edges.length p.2.edges (le_refl _),
    withDead_rename]
  show _ = (φ p.1, renameNode φ
    { p.2 with edges := withDead (compactEdges p.2.edges) })
  simp [renameNode]

theorem emitAll_rename (φ : Nat → Nat) (hφ : Function.Injective φ)
    (oc : StOracles) (σd : Store) :
    emitAll oc (renameStore φ σd) = emitAll oc σd := by
  unfold emitAll
  rw [indexList_rename φ oc σd 0]
  apply congrArg List.flatten
  unfold renameStore
  rw [List.map_map]
  apply List.map_congr_left
  intro p _
  show emitState oc _ (renameNode φ p.2).key (renameNode φ p.2).edges =
    emitState oc _ p.2.key p.2.edges
  have hkey : (renameNode φ p.2).key = p.2.key := rfl
  have hedges : (renameNode φ p.2).edges = p.2.edges.map (renameEdge φ) := rfl
  rw [hkey, hedges]
  exact emitState_rename φ hφ oc _ p.2.key p.2.edges

theorem pipeline_rename (alloc : Nat → Nat) (hφ : Function.Injective alloc)
    (oc : StOracles) (startKey : PosKey) (fuel : Nat) :
    pipeline alloc oc startKey fuel = pipeline (fun n => n) oc startKey fuel := by
  unfold pipeline
  rw [build_rename alloc hφ oc.movesOf startKey fuel]
  show emitAll oc (deadStore (renameStore alloc
    (build (fun n => n) oc.movesOf startKey fuel).σ)) = _
  rw [deadStore_rename alloc hφ, emitAll_rename alloc hφ]

/-- **C8.** Compilation is deterministic: the compile-and-assemble pipeline
emits the same opcode list — hence the same `nop_` count and the same words
in the same order — on every run on the same `(pattern, options)` pair.
The only run-to-run variation, the addresses handed out by `new State`, is
quantified explicitly: any two injective allocators produce identical
opcodes (the builder deduplicates by position-set comparison, orders states
by creation, and the encoder resolves targets through creation-order
indices — never through address values). -/
theorem c8_pipeline_deterministic (alloc1 alloc2 : Nat → Nat)
    (h1 : Function.Injective alloc1) (h2 : Function.Injective alloc2)
    (oc : StOracles) (startKey : PosKey) (fuel : Nat) :
    pipeline alloc1 oc startKey fuel = pipeline alloc2 oc startKey fuel := by
  rw [pipeline_rename alloc1 h1 oc startKey fuel,
    pipeline_rename alloc2 h2 oc startKey fuel]

/-- Witness for `c8_pipeline_deterministic`: the pattern `a` (start state
`{0}`, one move on byte `a` to the accepting state `{1}`), compiled with
the identity allocator and with an allocator placing states at `2n + 3`. -/
theorem c8_pipeline_deterministic_witness :
    (Function.Injective (fun n : Nat => n) ∧
        Function.Injective Nat.succ) ∧
      pipeline (fun n => n)
          ⟨fun k => if k = [0] then [([(0x61, 0x62)], [1])] else [],
            fun k => if k = [1] then 1 else 0, fun _ => false,
            fun _ => [], fun _ => []⟩ [0] 4 =
        pipeline Nat.succ
          ⟨fun k => if k = [0] then [([(0x61, 0x62)], [1])] else [],
            fun k => if k = [1] then 1 else 0, fun _ => false,
            fun _ => [], fun _ => []⟩ [0] 4 :=
  ⟨⟨fun _ _ h => h, fun _ _ h => Nat.succ.inj h⟩,
    c8_pipeline_deterministic (fun n => n) Nat.succ
      (fun _ _ h => h) (fun _ _ h => Nat.succ.inj h)
      ⟨fun k => if k = [0] then [([(0x61, 0x62)], [1])] else [],
        fun k => if k = [1] then 1 else 0, fun _ => false,
        fun _ => [], fun _ => []⟩ [0] 4⟩

/-- Witness for `c10_flip_complement_involution`: the digit set
`[[:digit:]]`, stored as `[0x30, 0x3a)`. -/
theorem c10_flip_complement_involution_witness :
    (List.Pairwise (fun a b : Nat × Nat => a.2 < b.1) [(0x30, 0x3a)] ∧
        ∀ r ∈ [((0x30 : Nat), (0x3a : Nat))], r.1 < r.2) ∧
      ((∀ b, memB b (flipChars [(0x30, 0x3a)]) ↔
          (b ≤ 0xff ∧ ¬ memB b [(0x30, 0x3a)])) ∧
        flipChars (flipChars [(0x30, 0x3a)]) = [(0x30, 0x3a)]) :=
  ⟨⟨by decide, by decide⟩,
    c10_flip_complement_involution [(0x30, 0x3a)] (by decide) (by decide) (by decide)⟩

end Reflex
